import Mathlib

/-
  Verification development for the Reddit comment-export tool (src/script.js).

  The JavaScript core is shallowly embedded below:
  - buildTableData (comment-tree flattener)
  - compareArray / sortTable (hierarchical comparator and sorter)
  - buildNodeDictionary / buildHierarchyFromDict / computeCounts /
    createSnippet (hierarchy rebuilder for the visualization)
  - formatDate / formatUTCAsISO8601 / formatUTCAsSimple (date formatter)

  JavaScript strings are modelled as Lean String (code points instead of
  UTF-16 units; identical on the inputs considered here), JS numbers in the
  reachable integer range as Int/Nat, and NaN - which arises only for the
  score fallback ups - downs on absent fields - as the none case of
  Option Int.  Falsy checks (empty string, 0, null/undefined) are modelled
  explicitly at each use site.
-/

-- ===== Decimal rendering of a nonnegative integer (JS Number toString) =====

def digitChar : Nat → Char
  | 0 => '0' | 1 => '1' | 2 => '2' | 3 => '3' | 4 => '4'
  | 5 => '5' | 6 => '6' | 7 => '7' | 8 => '8' | _ => '9'

-- Fueled digit expansion so that the kernel can evaluate it; natChars n
-- supplies fuel n+1 which always suffices (see natCharsAux_spec).
def natCharsAux : Nat → Nat → List Char
  | 0, _ => []
  | f + 1, n => if n < 10 then [digitChar n] else natCharsAux f (n / 10) ++ [digitChar (n % 10)]

def natChars (n : Nat) : List Char := natCharsAux (n + 1) n

def natToString (n : Nat) : String := String.mk (natChars n)

def digitVal (c : Char) : Nat := c.toNat - 48

def digitsVal (cs : List Char) : Nat := cs.foldl (fun a c => a * 10 + digitVal c) 0

-- ===== Splitting and joining on '.' (JS String split / Array join) =====

def splitDots : List Char → List (List Char)
  | [] => [[]]
  | c :: cs =>
    if c = '.' then [] :: splitDots cs
    else
      match splitDots cs with
      | [] => [[c]]
      | t :: ts => (c :: t) :: ts

def joinDots : List (List Char) → List Char
  | [] => []
  | [x] => x
  | x :: y :: ys => x ++ '.' :: joinDots (y :: ys)

-- numberingArray.join('.') for a list of JS numbers
def renderNum (arr : List Nat) : String := String.mk (joinDots (arr.map natChars))

-- s.split('.') for a JS string
def jsSplitDot (s : String) : List String := (splitDots s.data).map String.mk

def jsJoinDot (ps : List String) : String := String.mk (joinDots (ps.map String.data))

def decodeNum (s : String) : List Nat := (splitDots s.data).map digitsVal

-- ===== JS parseInt (base 10 path: whitespace, optional sign, digit run) =====

def parseDigitsJs (cs : List Char) : Option Nat :=
  let ds := cs.takeWhile Char.isDigit
  if ds.isEmpty then none else some (digitsVal ds)

def parseIntJs (cs : List Char) : Option Int :=
  match cs.dropWhile Char.isWhitespace with
  | '-' :: rest => (parseDigitsJs rest).map (fun n => -(n : Int))
  | '+' :: rest => (parseDigitsJs rest).map (fun n => (n : Int))
  | rest => (parseDigitsJs rest).map (fun n => (n : Int))

-- ===== Small JS string helpers =====

-- s.trim()
def jsTrim (s : String) : String :=
  String.mk (((s.data.dropWhile Char.isWhitespace).reverse.dropWhile Char.isWhitespace).reverse)

-- code-unit-wise less-than used by the JS < operator on strings
def jsStrLt : List Char → List Char → Bool
  | [], [] => false
  | [], _ :: _ => true
  | _ :: _, [] => false
  | a :: as, b :: bs => if a < b then true else if b < a then false else jsStrLt as bs

def jsLower (s : String) : String := String.mk (s.data.map Char.toLower)

-- ===== Data model: raw comment nodes and table rows =====

-- One node of the Reddit comment listing: a more-stub or a real comment.
-- Absent JSON fields are the none case; replies = none covers a missing,
-- null or structurally empty replies listing (all skipped identically by
-- the source's truthiness test on c.replies.data.children).
inductive CNode where
  | more : CNode
  | comment (body author : Option String) (ups downs score : Option Int)
      (createdUtc : Option Int) (replies : Option (List CNode)) : CNode

-- A row of tableData, fields as pushed by buildTableData (script.js 121-130).
structure Row where
  numbering : String
  level : Nat
  body : String
  author : String
  upvotes : Int
  downvotes : Int
  score : Option Int
  dateUtc : Option Int
deriving DecidableEq, Repr

-- c.body ? c.body : '[deleted]'  (empty string is falsy in JS)
def jsTruthyStr (v : Option String) (dflt : String) : String :=
  match v with
  | some s => if s = "" then dflt else s
  | none => dflt

-- c.ups || 0
def jsOrZero (v : Option Int) : Int :=
  match v with
  | some n => if n = 0 then 0 else n
  | none => 0

-- JS subtraction where an absent operand yields NaN (modelled as none)
def jsSub (a b : Option Int) : Option Int :=
  match a, b with
  | some x, some y => some (x - y)
  | _, _ => none

-- The row literal built for one comment node (script.js lines 121-130).
def mkRow (body author : Option String) (ups downs score createdUtc : Option Int)
    (numberingArray : List Nat) : Row :=
  { numbering := renderNum numberingArray
  , level := numberingArray.length
  , body := jsTruthyStr body "[deleted]"
  , author := jsTruthyStr author "[deleted]"
  , upvotes := jsOrZero ups
  , downvotes := jsOrZero downs
  , score := match score with
      | some v => some v
      | none => jsSub ups downs
  , dateUtc := match createdUtc with
      | some v => if v = 0 then none else some v
      | none => none }

-- buildTableData (script.js 107-139): the forEach loop with its
-- sibling counter, written as recursion; the rows pushed onto the global
-- tableData array are returned as a list instead.
mutual
def buildRows : List CNode → List Nat → Nat → List Row
  | [], _, _ => []
  | CNode.more :: rest, prefixArr, count => buildRows rest prefixArr count
  | CNode.comment b a u d sc t rep :: rest, prefixArr, count =>
    mkRow b a u d sc t (prefixArr ++ [count + 1]) ::
      (buildRowsReplies rep (prefixArr ++ [count + 1]) ++
        buildRows rest prefixArr (count + 1))
-- the guarded recursion on c.replies.data.children
def buildRowsReplies : Option (List CNode) → List Nat → List Row
  | some children, numberingArray => buildRows children numberingArray 0
  | none, _ => []
end

-- The top-level call buildTableData(comments, []) on a freshly reset table.
def buildTableData (comments : List CNode) : List Row := buildRows comments [] 0

-- Number of non-stub nodes in a comment listing, nested replies included.
mutual
def nonStubCount : List CNode → Nat
  | [] => 0
  | CNode.more :: rest => nonStubCount rest
  | CNode.comment _ _ _ _ _ _ rep :: rest =>
    1 + nonStubCountReplies rep + nonStubCount rest
def nonStubCountReplies : Option (List CNode) → Nat
  | some children => nonStubCount children
  | none => 0
end

-- ===== Specification-side flattener (for the refinement claim C1) =====

-- Modelled from the spec: a numbered tree in which every non-stub node
-- carries the Comment Record formed from its fields and the numbering
-- [parent prefix] ++ [1-based sibling counter], stubs being skipped
-- without consuming a counter value.
inductive NTree where
  | node (row : Row) (children : List NTree)

-- Modelled from the spec: assign numberings to the non-stub nodes of a
-- sibling list, counting 1..N in arrival order and skipping stubs.
mutual
def assignNums : List CNode → List Nat → Nat → List NTree
  | [], _, _ => []
  | CNode.more :: rest, prefixArr, count => assignNums rest prefixArr count
  | CNode.comment b a u d sc t rep :: rest, prefixArr, count =>
    NTree.node (mkRow b a u d sc t (prefixArr ++ [count + 1]))
      (assignNumsReplies rep (prefixArr ++ [count + 1])) ::
      assignNums rest prefixArr (count + 1)
def assignNumsReplies : Option (List CNode) → List Nat → List NTree
  | some children, numberingArray => assignNums children numberingArray 0
  | none, _ => []
end

-- Modelled from the spec: generic pre-order emission - a node before its
-- children, a subtree in full before the next sibling.
mutual
def preorderRows : NTree → List Row
  | NTree.node r children => r :: preorderForest children
def preorderForest : List NTree → List Row
  | [] => []
  | t :: ts => preorderRows t ++ preorderForest ts
end

def flattenSpec (comments : List CNode) : List Row :=
  preorderForest (assignNums comments [] 0)

-- ===== Hierarchical comparator (script.js 341-350) =====

-- a[i] || 0 : an out-of-range index (undefined) and NaN are both falsy
def segVal (v : Option Int) : Int :=
  match v with
  | some n => if n = 0 then 0 else n
  | none => 0

-- compareArray walks indices 0 .. max(len a, len b) - 1, reading missing
-- entries as 0 via a[i] || 0; the same loop expressed structurally.
def compareArrRight : List (Option Int) → Int
  | [] => 0
  | b :: bs =>
    if 0 < segVal b then -1 else if segVal b < 0 then 1 else compareArrRight bs

def compareArray : List (Option Int) → List (Option Int) → Int
  | [], bs => compareArrRight bs
  | a :: as, [] =>
    if segVal a < 0 then -1 else if 0 < segVal a then 1 else compareArray as []
  | a :: as, b :: bs =>
    if segVal a < segVal b then -1
    else if segVal b < segVal a then 1
    else compareArray as bs

-- a.numbering.split('.').map(num => parseInt(num))
def parseNumbering (s : String) : List (Option Int) :=
  (jsSplitDot s).map (fun p => parseIntJs p.data)

-- The numbering comparator used inside sortTable
def cmpNumbering (s t : String) : Int :=
  compareArray (parseNumbering s) (parseNumbering t)

-- ===== Sorter (script.js 300-338) =====

structure AppState where
  tableData : List Row
  tableBuilt : Bool
  sortAsc : Bool
deriving Repr

def rowFieldNames : List String :=
  ["numbering", "level", "body", "author", "upvotes", "downvotes", "score", "dateUtc"]

-- The comparator passed to Array.prototype.sort for a given column and
-- direction; a NaN comparator result is read as 0, as the ECMAScript
-- SortCompare does.  The catch-all branch is unreachable because sortTable
-- returns first on columns that are not row fields.
def colCmp (sortAsc : Bool) (column : String) (a b : Row) : Int :=
  let dir : Int := if sortAsc then 1 else -1
  if column = "numbering" then
    cmpNumbering a.numbering b.numbering * dir
  else if column = "dateUtc" then
    (jsOrZero a.dateUtc - jsOrZero b.dateUtc) * dir
  else if column = "upvotes" then (a.upvotes - b.upvotes) * dir
  else if column = "downvotes" then (a.downvotes - b.downvotes) * dir
  else if column = "level" then ((a.level : Int) - (b.level : Int)) * dir
  else if column = "score" then
    match a.score, b.score with
    | some x, some y => (x - y) * dir
    | _, _ => 0
  else if column = "body" then
    if jsStrLt (jsLower a.body).data (jsLower b.body).data then -dir
    else if jsStrLt (jsLower b.body).data (jsLower a.body).data then dir
    else 0
  else
    if jsStrLt (jsLower a.author).data (jsLower b.author).data then -dir
    else if jsStrLt (jsLower b.author).data (jsLower a.author).data then dir
    else 0

-- Array.prototype.sort with a consistent comparator: the unique stable
-- order, here List.mergeSort on cmp a b <= 0.
def jsSortBy (cmp : Row → Row → Int) (l : List Row) : List Row :=
  l.mergeSort (fun a b => cmp a b ≤ 0)

def sortTable (s : AppState) (column : String) : AppState :=
  if !s.tableBuilt || s.tableData.isEmpty then s
  else if ¬ (column ∈ rowFieldNames) ∧ column ≠ "body" then s
  else
    { s with
      tableData := jsSortBy (colCmp s.sortAsc column) s.tableData
      sortAsc := !s.sortAsc }

-- ===== Hierarchy rebuilder (script.js 1002-1072) =====

-- createSnippet (script.js 1054-1058)
def createSnippet (text : String) : String :=
  if text = "" ∨ text = "[deleted]" then "[deleted]"
  else
    let s := jsTrim text
    if 80 < s.length then (String.mk (s.data.take 80)) ++ "..." else s

-- One entry of the dictionary built by buildNodeDictionary.
structure DNode where
  id : String
  parentId : Option String
  score : Option Int
  bodySnippet : String
  fullNumbering : String
deriving DecidableEq, Repr

-- parts.slice(0, -1).join('.') when there is more than one part, else null
def derivedParentId (s : String) : Option String :=
  let parts := jsSplitDot s
  if 1 < parts.length then some (jsJoinDot parts.dropLast) else none

def mkDNode (row : Row) : DNode :=
  { id := row.numbering
  , parentId := derivedParentId row.numbering
  , score := row.score
  , bodySnippet := createSnippet row.body
  , fullNumbering := row.numbering }

-- dict[fullNum] = node : overwrite in place if the key exists, else append
def dictInsert (k : String) (v : DNode) : List (String × DNode) → List (String × DNode)
  | [] => [(k, v)]
  | (k1, v1) :: rest =>
    if k1 = k then (k, v) :: rest else (k1, v1) :: dictInsert k v rest

-- buildNodeDictionary (script.js 1002-1023), keyed by row.numbering
def buildNodeDictionary (data : List Row) : List (String × DNode) :=
  data.foldl (fun d row => dictInsert row.numbering (mkDNode row) d) []

-- A canonical array-index key as used by JS object property ordering:
-- a digit string without leading zeros (other than "0") below 2^32 - 1.
def canonIndexKey (s : String) : Option Nat :=
  if s.data ≠ [] ∧ s.data.all Char.isDigit ∧ (s.data = ['0'] ∨ s.data.head? ≠ some '0') ∧
      digitsVal s.data < 4294967295 then
    some (digitsVal s.data)
  else none

def insByKey (x : Nat × (String × DNode)) : List (Nat × (String × DNode)) → List (Nat × (String × DNode))
  | [] => [x]
  | y :: ys => if x.1 ≤ y.1 then x :: y :: ys else y :: insByKey x ys

def sortByKey : List (Nat × (String × DNode)) → List (Nat × (String × DNode))
  | [] => []
  | x :: xs => insByKey x (sortByKey xs)

-- Object.values: array-index keys first in ascending numeric order, then
-- the remaining string keys in insertion order.
def jsObjectValues (d : List (String × DNode)) : List DNode :=
  let canon := d.filter (fun kv => (canonIndexKey kv.1).isSome)
  let withKeys := canon.map (fun kv => ((canonIndexKey kv.1).getD 0, kv))
  (sortByKey withKeys).map (fun x => x.2.2) ++
    (d.filter (fun kv => ¬ (canonIndexKey kv.1).isSome)).map (fun kv => kv.2)

-- !node.parentId : null and the empty string are falsy
def attachesToRoot (w : DNode) : Bool :=
  match w.parentId with
  | none => true
  | some s => s = ""

-- The nodes pushed onto dict[id].children, in Object.values order
def childrenVals (vals : List DNode) (id : String) : List DNode :=
  vals.filter (fun w => !attachesToRoot w && w.parentId = some id)

inductive HTree where
  | node (data : DNode) (children : List HTree)
deriving Repr

def HTree.dataOf : HTree → DNode
  | .node v _ => v

def HTree.childrenOf : HTree → List HTree
  | .node _ ch => ch

-- The linked structure below one dictionary node, unfolded to the given
-- depth; buildHierarchyFromDict passes fuel vals.length, which suffices
-- because every parent id is strictly shorter than its child's id.
def subtreeB (vals : List DNode) : Nat → DNode → HTree
  | 0, v => HTree.node v []
  | f + 1, v => HTree.node v ((childrenVals vals v.id).map (subtreeB vals f))

structure RootTree where
  name : String
  children : List HTree
deriving Repr

-- buildHierarchyFromDict (script.js 1029-1051): root node "Post" whose
-- children are the root-attached dictionary values with their linked
-- subtrees (counts are computed by computeCounts separately below).
def buildHierarchyFromDict (d : List (String × DNode)) : RootTree :=
  let vals := jsObjectValues d
  { name := "Post"
  , children := (vals.filter attachesToRoot).map (subtreeB vals vals.length) }

-- computeCounts (script.js 1061-1072): the count stored on a node
mutual
def computeCounts : HTree → Nat
  | HTree.node _ ch => if ch.isEmpty then 1 else computeCountsList ch
def computeCountsList : List HTree → Nat
  | [] => 0
  | t :: ts => computeCounts t + computeCountsList ts
end

-- computeCounts(root) where the root always owns its children list
def computeCountsRoot (r : RootTree) : Nat :=
  if r.children.isEmpty then 1 else computeCountsList r.children

-- All nodes of a subtree / of the whole rebuilt tree
mutual
def nodesOf : HTree → List DNode
  | HTree.node v ch => v :: nodesOfList ch
def nodesOfList : List HTree → List DNode
  | [] => []
  | t :: ts => nodesOf t ++ nodesOfList ts
end

def rootNodes (r : RootTree) : List DNode := nodesOfList r.children

-- All subtrees (for leaf counting)
mutual
def subtreesOf : HTree → List HTree
  | HTree.node v ch => HTree.node v ch :: subtreesOfList ch
def subtreesOfList : List HTree → List HTree
  | [] => []
  | t :: ts => subtreesOf t ++ subtreesOfList ts
end

def isLeafT (t : HTree) : Bool := t.childrenOf.isEmpty

-- Number of nodes of a subtree (a node plus its whole subtree below)
mutual
def treeSize : HTree → Nat
  | HTree.node _ ch => 1 + treeSizeList ch
def treeSizeList : List HTree → Nat
  | [] => 0
  | t :: ts => treeSize t + treeSizeList ts
end

def rootTreeSize (r : RootTree) : Nat := 1 + treeSizeList r.children

-- ===== Date formatter (script.js 142-177) =====

-- Days-to-civil-date conversion (proleptic Gregorian, UTC), the arithmetic
-- behind the Date getUTC* accessors.
def civilFromDays (z0 : Int) : Int × Nat × Nat :=
  let z := z0 + 719468
  let era : Int := if 0 ≤ z then z / 146097 else (z - 146096) / 146097
  let doe : Nat := (z - era * 146097).toNat
  let yoe : Nat := (doe - doe / 1460 + doe / 36524 - doe / 146096) / 365
  let y : Int := (yoe : Int) + era * 400
  let doy : Nat := doe - (365 * yoe + yoe / 4 - yoe / 100)
  let mp : Nat := (5 * doy + 2) / 153
  let d : Nat := doy - (153 * mp + 2) / 5 + 1
  let m : Nat := if mp < 10 then mp + 3 else mp - 9
  (y + (if m ≤ 2 then 1 else 0), m, d)

structure DateParts where
  year : Int
  month : Nat
  day : Nat
  hour : Nat
  minute : Nat
  second : Nat
  weekday : Nat

-- new Date(utcSeconds * 1000) decomposed in UTC
def dateFromEpochSecs (t : Int) : DateParts :=
  let days : Int := Int.fdiv t 86400
  let secsOfDay : Nat := (t - days * 86400).toNat
  let c := civilFromDays days
  { year := c.1, month := c.2.1, day := c.2.2
  , hour := secsOfDay / 3600
  , minute := secsOfDay % 3600 / 60
  , second := secsOfDay % 60
  , weekday := ((days + 4) % 7).toNat }

def pad2 (n : Nat) : String :=
  if n < 10 then "0" ++ natToString n else natToString n

def intYearToString (y : Int) : String :=
  if 0 ≤ y then natToString y.toNat else "-" ++ natToString (-y).toNat

-- formatUTCAsISO8601 (script.js 158-166)
def formatUTCAsISO8601 (p : DateParts) : String :=
  intYearToString p.year ++ "-" ++ pad2 p.month ++ "-" ++ pad2 p.day ++ "T" ++
    pad2 p.hour ++ ":" ++ pad2 p.minute ++ ":" ++ pad2 p.second ++ "+00:00"

-- formatUTCAsSimple (script.js 169-177)
def formatUTCAsSimple (p : DateParts) : String :=
  intYearToString p.year ++ "-" ++ pad2 p.month ++ "-" ++ pad2 p.day ++ "T" ++
    pad2 p.hour ++ ":" ++ pad2 p.minute ++ ":" ++ pad2 p.second ++ "Z"

def weekdayName (w : Nat) : String :=
  match w with
  | 0 => "Sun" | 1 => "Mon" | 2 => "Tue" | 3 => "Wed"
  | 4 => "Thu" | 5 => "Fri" | _ => "Sat"

def monthName (m : Nat) : String :=
  match m with
  | 1 => "Jan" | 2 => "Feb" | 3 => "Mar" | 4 => "Apr" | 5 => "May" | 6 => "Jun"
  | 7 => "Jul" | 8 => "Aug" | 9 => "Sep" | 10 => "Oct" | 11 => "Nov" | _ => "Dec"

-- Date.prototype.toUTCString
def toUTCStringModel (p : DateParts) : String :=
  weekdayName p.weekday ++ ", " ++ pad2 p.day ++ " " ++ monthName p.month ++ " " ++
    intYearToString p.year ++ " " ++ pad2 p.hour ++ ":" ++ pad2 p.minute ++ ":" ++
    pad2 p.second ++ " GMT"

-- Date.prototype.toISOString (milliseconds are 0 for whole-second input)
def toISOStringModel (p : DateParts) : String :=
  intYearToString p.year ++ "-" ++ pad2 p.month ++ "-" ++ pad2 p.day ++ "T" ++
    pad2 p.hour ++ ":" ++ pad2 p.minute ++ ":" ++ pad2 p.second ++ ".000Z"

-- formatDate (script.js 142-155); selectedDateFormat passed explicitly,
-- utcSeconds is null/undefined (none) or a number, 0 being falsy.
def formatDate (selectedDateFormat : String) (utcSeconds : Option Int) : String :=
  match utcSeconds with
  | none => ""
  | some t =>
    if t = 0 then ""
    else
      let d := dateFromEpochSecs t
      if selectedDateFormat = "iso8601" then formatUTCAsISO8601 d
      else if selectedDateFormat = "rfc1123" then toUTCStringModel d
      else if selectedDateFormat = "utc" then formatUTCAsSimple d
      else toISOStringModel d

-- ===== Comparator algebra =====

-- Equal-structure pairwise comparison; compareArray coincides with cmpEq
-- after padding both sides with zeros (the value of a[i] || 0 beyond the
-- end of an array).
def cmpEq : List Int → List Int → Int
  | a :: as, b :: bs => if a < b then -1 else if b < a then 1 else cmpEq as bs
  | _, _ => 0

def padZ (n : Nat) (a : List Int) : List Int := a ++ List.replicate (n - a.length) 0

def valsOf (a : List (Option Int)) : List Int := a.map segVal

-- ===== Flattener structure: the numbering arrays of buildRows =====

-- The numbering arrays produced alongside the rows, same recursion shape.
mutual
def buildArrs : List CNode → List Nat → Nat → List (List Nat)
  | [], _, _ => []
  | CNode.more :: rest, prefixArr, count => buildArrs rest prefixArr count
  | CNode.comment _ _ _ _ _ _ rep :: rest, prefixArr, count =>
    (prefixArr ++ [count + 1]) ::
      (buildArrsReplies rep (prefixArr ++ [count + 1]) ++ buildArrs rest prefixArr (count + 1))
def buildArrsReplies : Option (List CNode) → List Nat → List (List Nat)
  | some children, numberingArray => buildArrs children numberingArray 0
  | none, _ => []
end

-- Abbreviations for the comparator families appearing in sortTable
def strCmpDir (d : Int) (x y : List Char) : Int :=
  if jsStrLt x y then -d else if jsStrLt y x then d else 0

def scoreKeyCmp (asc : Bool) (a b : Row) : Int :=
  ((a.score.getD 0) - (b.score.getD 0)) * (if asc then 1 else -1)

-- ===== C2 infrastructure, part 1: numbering arrays =====

def beginsWith : List Nat → List Nat → Bool
  | [], _ => true
  | _ :: _, [] => false
  | p :: ps, x :: xs => p = x && beginsWith ps xs

-- ===== C2 infrastructure, part 4: numbering arrays of dictionary nodes =====

-- The dot-split numbering array denoted by a dictionary node's id.
def arrOf (v : DNode) : List Nat := decodeNum v.id

-- The invariants the flattener guarantees for the dictionary values: every
-- id renders a nonempty numbering array, the parent id is derived from the
-- id, ids are distinct, and every nonempty truncation of a numbering array
-- is itself the numbering array of some value.
def ValsOK (vals : List DNode) : Prop :=
  (∀ v ∈ vals,
      arrOf v ≠ [] ∧ v.id = renderNum (arrOf v) ∧ v.parentId = derivedParentId v.id) ∧
    (vals.map DNode.id).Nodup ∧
    ∀ v ∈ vals, ∀ n, 0 < n → n ≤ (arrOf v).length → ∃ w ∈ vals, arrOf w = (arrOf v).take n

-- ===== Theorems =====

-- ===== Lemmas: digits =====

theorem digitChar_isDigit (d : Nat) : (digitChar d).isDigit = true := by
  unfold digitChar; split <;> decide

theorem digitChar_ne_dot (d : Nat) : digitChar d ≠ '.' := by
  unfold digitChar; split <;> decide

theorem digitVal_digitChar {d : Nat} (h : d < 10) : digitVal (digitChar d) = d := by
  interval_cases d <;> rfl

theorem digitsVal_append (xs : List Char) (c : Char) :
    digitsVal (xs ++ [c]) = digitsVal xs * 10 + digitVal c := by
  simp [digitsVal, List.foldl_append]

theorem natCharsAux_spec :
    ∀ f n, n < f →
      natCharsAux f n ≠ [] ∧ (∀ c ∈ natCharsAux f n, c.isDigit = true) ∧
        digitsVal (natCharsAux f n) = n := by
  intro f
  induction f with
  | zero => omega
  | succ f ih =>
    intro n hn
    by_cases h10 : n < 10
    · refine ⟨by simp [natCharsAux, h10], ?_, ?_⟩
      · simp [natCharsAux, h10]
        exact digitChar_isDigit n
      · simp [natCharsAux, h10, digitsVal, digitVal_digitChar h10]
    · have hdiv : n / 10 < f := by omega
      obtain ⟨h1, h2, h3⟩ := ih (n / 10) hdiv
      refine ⟨by simp [natCharsAux, h10], ?_, ?_⟩
      · intro c hc
        simp only [natCharsAux, if_neg h10, List.mem_append, List.mem_singleton] at hc
        rcases hc with hc | hc
        · exact h2 c hc
        · subst hc; exact digitChar_isDigit _
      · have hm : n % 10 < 10 := Nat.mod_lt _ (by omega)
        simp only [natCharsAux, if_neg h10]
        rw [digitsVal_append, h3, digitVal_digitChar hm]
        omega

theorem natChars_ne_nil (n : Nat) : natChars n ≠ [] :=
  (natCharsAux_spec (n + 1) n (Nat.lt_succ_self n)).1

theorem natChars_digits (n : Nat) : ∀ c ∈ natChars n, c.isDigit = true :=
  (natCharsAux_spec (n + 1) n (Nat.lt_succ_self n)).2.1

theorem digitsVal_natChars (n : Nat) : digitsVal (natChars n) = n :=
  (natCharsAux_spec (n + 1) n (Nat.lt_succ_self n)).2.2

theorem natChars_ne_dot (n : Nat) : ∀ c ∈ natChars n, c ≠ '.' := by
  intro c hc
  have := natChars_digits n c hc
  intro h; subst h; simp [Char.isDigit] at this

theorem natChars_injective : Function.Injective natChars := by
  intro a b h
  have := digitsVal_natChars a
  rw [h, digitsVal_natChars] at this
  omega

-- ===== Lemmas: splitDots / joinDots =====

theorem splitDots_ne_nil (cs : List Char) : splitDots cs ≠ [] := by
  induction cs with
  | nil => simp [splitDots]
  | cons c cs ih =>
    by_cases h : c = '.'
    · simp [splitDots, h]
    · simp only [splitDots, if_neg h]
      cases hs : splitDots cs with
      | nil => simp
      | cons t ts => simp

theorem splitDots_no_dot {cs : List Char} (h : ∀ c ∈ cs, c ≠ '.') :
    splitDots cs = [cs] := by
  induction cs with
  | nil => rfl
  | cons c cs ih =>
    have hc : c ≠ '.' := h c (by simp)
    have hrest : splitDots cs = [cs] := ih (fun x hx => h x (by simp [hx]))
    simp [splitDots, hc, hrest]

theorem splitDots_chunk_dot {x : List Char} (h : ∀ c ∈ x, c ≠ '.') (r : List Char) :
    splitDots (x ++ '.' :: r) = x :: splitDots r := by
  induction x with
  | nil => simp [splitDots]
  | cons c cs ih =>
    have hc : c ≠ '.' := h c (by simp)
    have hrest := ih (fun y hy => h y (by simp [hy]))
    simp only [List.cons_append, splitDots, if_neg hc, List.append_eq, hrest]

theorem splitDots_joinDots :
    ∀ {ps : List (List Char)}, ps ≠ [] → (∀ p ∈ ps, ∀ c ∈ p, c ≠ '.') →
      splitDots (joinDots ps) = ps := by
  intro ps
  induction ps with
  | nil => intro h; exact absurd rfl h
  | cons x ps ih =>
    intro _ hnd
    cases ps with
    | nil => exact splitDots_no_dot (hnd x (by simp))
    | cons y ys =>
      have hx : ∀ c ∈ x, c ≠ '.' := hnd x (by simp)
      have : joinDots (x :: y :: ys) = x ++ '.' :: joinDots (y :: ys) := rfl
      rw [this, splitDots_chunk_dot hx]
      rw [ih (by simp) (fun p hp => hnd p (by simp [hp]))]

theorem decodeNum_renderNum {a : List Nat} (h : a ≠ []) : decodeNum (renderNum a) = a := by
  have h1 : splitDots (joinDots (a.map natChars)) = a.map natChars := by
    apply splitDots_joinDots
    · simpa using h
    · intro p hp
      obtain ⟨n, _, rfl⟩ := List.mem_map.mp hp
      exact natChars_ne_dot n
  simp only [decodeNum, renderNum, h1]
  rw [List.map_map]
  conv_rhs => rw [(List.map_id a).symm]
  exact List.map_congr_left (fun n _ => digitsVal_natChars n)

theorem renderNum_injOn {a b : List Nat} (ha : a ≠ []) (hb : b ≠ [])
    (h : renderNum a = renderNum b) : a = b := by
  have := decodeNum_renderNum ha
  rw [h, decodeNum_renderNum hb] at this
  exact this.symm

theorem renderNum_ne_empty {a : List Nat} (h : a ≠ []) : renderNum a ≠ "" := by
  intro hcon
  cases a with
  | nil => exact h rfl
  | cons n rest =>
    have hne : joinDots ((n :: rest).map natChars) ≠ [] := by
      cases rest with
      | nil => simpa [joinDots] using natChars_ne_nil n
      | cons m ms =>
        simp only [List.map_cons, joinDots]
        intro hx
        exact natChars_ne_nil n (List.append_eq_nil.mp hx).1
    apply hne
    have : (renderNum (n :: rest)).data = ("" : String).data := by rw [hcon]
    simpa [renderNum] using this

theorem jsSplitDot_renderNum {a : List Nat} (h : a ≠ []) :
    jsSplitDot (renderNum a) = a.map natToString := by
  have h1 : splitDots (joinDots (a.map natChars)) = a.map natChars := by
    apply splitDots_joinDots
    · simpa using h
    · intro p hp
      obtain ⟨n, _, rfl⟩ := List.mem_map.mp hp
      exact natChars_ne_dot n
  simp [jsSplitDot, renderNum, h1, List.map_map, natToString]

theorem parseDigitsJs_natChars (n : Nat) : parseDigitsJs (natChars n) = some n := by
  have hall : natChars n = (natChars n).takeWhile Char.isDigit := by
    symm
    exact List.takeWhile_eq_self_iff.mpr (natChars_digits n)
  have hne := natChars_ne_nil n
  simp only [parseDigitsJs, ← hall]
  rw [if_neg (by simpa using hne)]
  rw [digitsVal_natChars]

theorem parseIntJs_natChars (n : Nat) : parseIntJs (natChars n) = some (n : Int) := by
  obtain ⟨c, cs, hc⟩ : ∃ c cs, natChars n = c :: cs := by
    cases h : natChars n with
    | nil => exact absurd h (natChars_ne_nil n)
    | cons c cs => exact ⟨c, cs, rfl⟩
  have hdig : c.isDigit = true := natChars_digits n c (by rw [hc]; simp)
  have hnws : c.isWhitespace = false := by
    rcases hws : c.isWhitespace with _ | _
    · rfl
    · exfalso
      simp only [Char.isWhitespace, Bool.or_eq_true, decide_eq_true_eq] at hws
      rcases hws with ((h | h) | h) | h <;>
        (subst h; exact absurd hdig (by decide))
  have hdrop : (natChars n).dropWhile Char.isWhitespace = natChars n := by
    rw [hc]
    rw [List.dropWhile_cons_of_neg (by simp [hnws])]
  have hcm : c ≠ '-' ∧ c ≠ '+' := by
    constructor <;> (intro h; subst h; exact absurd hdig (by decide))
  have hres : parseDigitsJs (c :: cs) = some n := by rw [← hc]; exact parseDigitsJs_natChars n
  rcases hcm with ⟨hm, hp⟩
  unfold parseIntJs
  rw [hdrop, hc]
  split
  · rename_i rest heq
    exact absurd (List.cons.injEq _ _ _ _ ▸ heq).1 hm
  · rename_i rest heq
    exact absurd (List.cons.injEq _ _ _ _ ▸ heq).1 hp
  · rw [hres]
    rfl

-- ===== Helper lemmas for concrete sort evaluation =====

theorem mergeSort_pair {α : Type} (a b : α) (le : α → α → Bool) :
    List.mergeSort [a, b] le = if le a b then [a, b] else [b, a] := by
  rw [List.mergeSort]
  norm_num [List.splitInTwo, List.splitAt, List.splitAt.go, List.mergeSort, List.merge]

-- ===== C8: date formatter concrete values =====

/-- Claim C8 as stated is false at its own concrete input: epoch seconds
1741703950 under the iso8601 selector format to 14:39:10, not to the
14:19:10 string the claim names. -/
theorem c8_counterexample :
    formatDate "iso8601" (some 1741703950) = "2025-03-11T14:39:10+00:00" ∧
      ("2025-03-11T14:39:10+00:00" : String) ≠ "2025-03-11T14:19:10+00:00" := by
  constructor
  · rfl
  · decide

/-- Claim C8 (amended): the Date Formatter maps epoch seconds 1741703950
with the iso8601 selector to 2025-03-11T14:39:10+00:00 and the same input
with the utc selector to 2025-03-11T14:39:10Z; an absent timestamp maps to
the empty string under every selector. -/
theorem c8_date_formatter :
    formatDate "iso8601" (some 1741703950) = "2025-03-11T14:39:10+00:00" ∧
      formatDate "utc" (some 1741703950) = "2025-03-11T14:39:10Z" ∧
      ∀ selectedDateFormat : String, formatDate selectedDateFormat none = "" := by
  refine ⟨rfl, rfl, ?_⟩
  intro fmt
  rfl

/-- Claim C10: a timestamp value of exactly 0 (the Unix epoch, a present
value) is falsy in the guard of formatDate, so the formatter returns the
empty string under every format selector, exactly as for an absent
timestamp. -/
theorem c10_zero_timestamp :
    ∀ selectedDateFormat : String,
      formatDate selectedDateFormat (some 0) = "" ∧
        formatDate selectedDateFormat (some 0) = formatDate selectedDateFormat none := by
  intro fmt
  exact ⟨rfl, rfl⟩

-- ===== C9: snippet =====

/-- Claim C9 as stated is false: createSnippet trims the body first, so for
the record body consisting of the two characters of hi followed by a blank
the snippet is the two-character string, which differs from the body even
though the body is far below 80 characters. -/
theorem c9_counterexample :
    (mkDNode { numbering := "1", level := 1, body := "hi ", author := "a"
             , upvotes := 0, downvotes := 0, score := some 0, dateUtc := none }).bodySnippet
        = "hi" ∧ ("hi" : String) ≠ "hi " := by
  constructor
  · rfl
  · decide

/-- Claim C9 (amended): the display snippet is computed from the trimmed
body: bodies equal to the sentinel (or empty) pass through as the sentinel,
a trimmed body of more than 80 characters becomes its first 80 characters
followed by the ellipsis marker, and any other body becomes its trimmed
form. -/
theorem c9_snippet (r : Row) :
    (r.body = "[deleted]" → (mkDNode r).bodySnippet = "[deleted]") ∧
      (r.body = "" → (mkDNode r).bodySnippet = "[deleted]") ∧
      (r.body ≠ "" → r.body ≠ "[deleted]" → 80 < (jsTrim r.body).length →
        (mkDNode r).bodySnippet = String.mk ((jsTrim r.body).data.take 80) ++ "...") ∧
      (r.body ≠ "" → r.body ≠ "[deleted]" → (jsTrim r.body).length ≤ 80 →
        (mkDNode r).bodySnippet = jsTrim r.body) := by
  refine ⟨?_, ?_, ?_, ?_⟩
  · intro h; simp [mkDNode, createSnippet, h]
  · intro h; simp [mkDNode, createSnippet, h]
  · intro h1 h2 h3
    have hcond : ¬ (r.body = "" ∨ r.body = "[deleted]") := by tauto
    simp only [mkDNode, createSnippet]
    rw [if_neg hcond, if_pos h3]
  · intro h1 h2 h3
    have hcond : ¬ (r.body = "" ∨ r.body = "[deleted]") := by tauto
    simp only [mkDNode, createSnippet]
    rw [if_neg hcond, if_neg (by omega)]

/-- Witness for C9 at a concrete record whose body carries a trailing
blank. -/
theorem c9_witness :
    let r : Row := { numbering := "1", level := 1, body := "x y ", author := "a"
                   , upvotes := 0, downvotes := 0, score := some 0, dateUtc := none }
    r.body ≠ "" ∧ r.body ≠ "[deleted]" ∧ (jsTrim r.body).length ≤ 80 ∧
      (mkDNode r).bodySnippet = jsTrim r.body := by
  refine ⟨by decide, by decide, by decide, ?_⟩
  exact (c9_snippet _).2.2.2 (by decide) (by decide) (by decide)

-- ===== C6: record field defaults =====

/-- Claim C6 as stated is false: when the explicit score is absent the code
falls back to the raw ups - downs, so a node with ups 5 and absent downs
gets the non-numeric NaN score rather than upvotes - downvotes = 5 of the
defaulted vote fields. -/
theorem c6_counterexample :
    (mkRow (some "b") (some "a") (some 5) none none none [1]).score = none ∧
      (mkRow (some "b") (some "a") (some 5) none none none [1]).upvotes -
        (mkRow (some "b") (some "a") (some 5) none none none [1]).downvotes = 5 := by
  constructor
  · rfl
  · rfl

/-- Claim C6 (amended): body and author carry the sentinel when absent,
upvotes and downvotes default to 0 when absent, and score is the explicit
value when present; otherwise it falls back to ups - downs computed on the
raw input fields, which equals upvotes - downvotes of the defaulted record
fields when both are present and is the non-numeric NaN when either is
absent. -/
theorem c6_row_defaults (b a : Option String) (u d sc t : Option Int) (arr : List Nat) :
    (b = none → (mkRow b a u d sc t arr).body = "[deleted]") ∧
      (a = none → (mkRow b a u d sc t arr).author = "[deleted]") ∧
      (u = none → (mkRow b a u d sc t arr).upvotes = 0) ∧
      (d = none → (mkRow b a u d sc t arr).downvotes = 0) ∧
      (∀ v, sc = some v → (mkRow b a u d sc t arr).score = some v) ∧
      (sc = none → (mkRow b a u d sc t arr).score = jsSub u d) ∧
      (∀ x y, sc = none → u = some x → d = some y →
        (mkRow b a u d sc t arr).score =
          some ((mkRow b a u d sc t arr).upvotes - (mkRow b a u d sc t arr).downvotes)) ∧
      (sc = none → (u = none ∨ d = none) → (mkRow b a u d sc t arr).score = none) := by
  have hz : ∀ x : Int, jsOrZero (some x) = x := by
    intro x
    by_cases hx : x = 0 <;> simp [jsOrZero, hx]
  refine ⟨?_, ?_, ?_, ?_, ?_, ?_, ?_, ?_⟩
  · intro h; subst h; rfl
  · intro h; subst h; rfl
  · intro h; subst h; rfl
  · intro h; subst h; rfl
  · intro v h; subst h; rfl
  · intro h; subst h; rfl
  · intro x y hsc hu hd
    subst hsc; subst hu; subst hd
    simp [mkRow, jsSub, hz]
  · intro hsc hud
    subst hsc
    rcases hud with h | h
    · subst h; rfl
    · subst h; cases u <;> rfl

/-- Witness for C6 at a node with every field present. -/
theorem c6_witness :
    ((none : Option String) = none →
      (mkRow none none (some 7) (some 2) none none [1]).body = "[deleted]") ∧
      (mkRow none none (some 7) (some 2) none none [1]).score = some 5 := by
  refine ⟨(c6_row_defaults none none (some 7) (some 2) none none [1]).1, ?_⟩
  have := (c6_row_defaults none none (some 7) (some 2) none none [1]).2.2.2.2.2.2.1
    7 2 rfl rfl rfl
  rw [this]
  rfl

-- ===== C7: sorter no-op conditions and direction flag =====

/-- Claim C7: sortTable returns the state unchanged when the table has not
been built or the flat sequence is empty, and likewise when the requested
column is not a row field (body being a field, hence always valid); on
every successful sort the process-wide direction flag is negated for the
next invocation, whatever the column was. -/
theorem c7_sorter (s : AppState) (column : String) :
    (s.tableBuilt = false ∨ s.tableData = [] → sortTable s column = s) ∧
      (column ∉ rowFieldNames ∧ column ≠ "body" → sortTable s column = s) ∧
      (s.tableBuilt = true → s.tableData ≠ [] →
        (column ∈ rowFieldNames ∨ column = "body") →
        (sortTable s column).sortAsc = !s.sortAsc ∧
          (sortTable s column).tableBuilt = s.tableBuilt) := by
  refine ⟨?_, ?_, ?_⟩
  · intro h
    have hg : (!s.tableBuilt || s.tableData.isEmpty) = true := by
      rcases h with h | h <;> simp [h]
    simp [sortTable, hg]
  · intro h
    by_cases hg : (!s.tableBuilt || s.tableData.isEmpty) = true
    · simp [sortTable, hg]
    · have : sortTable s column = if ¬ (column ∈ rowFieldNames) ∧ column ≠ "body" then s
          else { s with tableData := jsSortBy (colCmp s.sortAsc column) s.tableData
                      , sortAsc := !s.sortAsc } := by
        simp [sortTable, hg]
      rw [this, if_pos (by tauto)]
  · intro hb hd hv
    have hde : s.tableData.isEmpty = false := by
      cases hdata : s.tableData with
      | nil => exact absurd hdata hd
      | cons x xs => rfl
    have hg : (!s.tableBuilt || s.tableData.isEmpty) = false := by simp [hb, hde]
    have hv2 : ¬ (¬ (column ∈ rowFieldNames) ∧ column ≠ "body") := by
      rcases hv with h | h
      · tauto
      · intro hc; exact hc.2 h
    simp [sortTable, hg, hv2]

/-- Witness for C7: a populated one-row state sorted on the level column
flips the ascending flag, and an unbuilt state is left untouched. -/
theorem c7_witness :
    let r : Row := { numbering := "1", level := 1, body := "b", author := "a"
                   , upvotes := 0, downvotes := 0, score := some 0, dateUtc := none }
    (sortTable { tableData := [r], tableBuilt := true, sortAsc := true } "level").sortAsc
        = !true ∧
      sortTable { tableData := [r], tableBuilt := false, sortAsc := true } "level"
        = { tableData := [r], tableBuilt := false, sortAsc := true } := by
  intro r
  constructor
  · exact ((c7_sorter { tableData := [r], tableBuilt := true, sortAsc := true } "level").2.2
      rfl (by decide) (Or.inl (by decide))).1
  · exact (c7_sorter { tableData := [r], tableBuilt := false, sortAsc := true } "level").1
      (Or.inl rfl)

theorem segVal_some (v : Int) : segVal (some v) = v := by
  by_cases h : v = 0 <;> simp [segVal, h]

theorem cmpEq_replicate_zero : ∀ k m, cmpEq (List.replicate k 0) (List.replicate m 0) = 0 := by
  intro k
  induction k with
  | zero => intro m; cases m <;> rfl
  | succ k ih =>
    intro m
    cases m with
    | zero => rfl
    | succ m => simpa [cmpEq, List.replicate_succ] using ih m

theorem cmpEq_append :
    ∀ {a b : List Int}, a.length = b.length → ∀ x y,
      cmpEq (a ++ x) (b ++ y) = if cmpEq a b = 0 then cmpEq x y else cmpEq a b := by
  intro a
  induction a with
  | nil =>
    intro b hb x y
    rw [List.length_nil] at hb
    rw [List.eq_nil_of_length_eq_zero hb.symm]
    simp [cmpEq]
  | cons a as ih =>
    intro b hb x y
    cases b with
    | nil => simp at hb
    | cons b bs =>
      simp only [List.length_cons, Nat.succ.injEq] at hb
      by_cases h1 : a < b
      · simp [cmpEq, h1]
      · by_cases h2 : b < a
        · simp [cmpEq, h1, h2]
        · simp only [List.cons_append, cmpEq, if_neg h1, if_neg h2]
          exact ih hb x y

theorem cmpEq_range : ∀ a b : List Int, cmpEq a b = -1 ∨ cmpEq a b = 0 ∨ cmpEq a b = 1 := by
  intro a
  induction a with
  | nil => intro b; cases b <;> simp [cmpEq]
  | cons a as ih =>
    intro b
    cases b with
    | nil => simp [cmpEq]
    | cons b bs =>
      by_cases h1 : a < b
      · simp [cmpEq, h1]
      · by_cases h2 : b < a
        · simp [cmpEq, h1, h2]
        · simpa [cmpEq, h1, h2] using ih bs

theorem cmpEq_antisym : ∀ a b : List Int, cmpEq b a = -cmpEq a b := by
  intro a
  induction a with
  | nil => intro b; cases b <;> simp [cmpEq]
  | cons a as ih =>
    intro b
    cases b with
    | nil => simp [cmpEq]
    | cons b bs =>
      by_cases h1 : a < b
      · simp [cmpEq, h1, not_lt_of_lt h1, ne_of_gt h1]
      · by_cases h2 : b < a
        · simp [cmpEq, h1, h2]
        · simp only [cmpEq, if_neg h1, if_neg h2]
          exact ih bs

theorem cmpEq_zero_eq : ∀ {a b : List Int}, a.length = b.length → cmpEq a b = 0 → a = b := by
  intro a
  induction a with
  | nil =>
    intro b hb _
    rw [List.length_nil] at hb
    exact (List.eq_nil_of_length_eq_zero hb.symm).symm
  | cons a as ih =>
    intro b hb h0
    cases b with
    | nil => simp at hb
    | cons b bs =>
      simp only [List.length_cons, Nat.succ.injEq] at hb
      by_cases h1 : a < b
      · simp [cmpEq, h1] at h0
      · by_cases h2 : b < a
        · simp [cmpEq, h1, h2] at h0
        · have hab : a = b := le_antisymm (not_lt.mp h2) (not_lt.mp h1)
          simp only [cmpEq, if_neg h1, if_neg h2] at h0
          rw [hab, ih hb h0]

theorem cmpEq_trans_neg :
    ∀ {a b c : List Int}, a.length = b.length → b.length = c.length →
      cmpEq a b = -1 → cmpEq b c = -1 → cmpEq a c = -1 := by
  intro a
  induction a with
  | nil =>
    intro b c hb _ hab _
    rw [List.length_nil] at hb
    rw [List.eq_nil_of_length_eq_zero hb.symm] at hab
    simp [cmpEq] at hab
  | cons a as ih =>
    intro b c hb hc hab hbc
    cases b with
    | nil => simp at hb
    | cons b bs =>
      cases c with
      | nil => simp at hc
      | cons c cs =>
        simp only [List.length_cons, Nat.succ.injEq] at hb hc
        by_cases h1 : a < b
        · by_cases h2 : b < c
          · simp [cmpEq, lt_trans h1 h2]
          · by_cases h3 : c < b
            · simp [cmpEq, h2, h3] at hbc
            · have : b = c := le_antisymm (not_lt.mp h3) (not_lt.mp h2)
              subst this
              simp [cmpEq, h1]
        · by_cases h2 : b < a
          · simp [cmpEq, h1, h2] at hab
          · have hab2 : a = b := le_antisymm (not_lt.mp h2) (not_lt.mp h1)
            subst hab2
            simp only [cmpEq, if_neg h1, if_neg h2] at hab
            by_cases h3 : a < c
            · simp [cmpEq, h3]
            · by_cases h4 : c < a
              · simp [cmpEq, h3, h4] at hbc
              · simp only [cmpEq, if_neg h3, if_neg h4] at hbc ⊢
                exact ih hb hc hab hbc

theorem compareArrRight_eq (bs : List (Option Int)) :
    compareArrRight bs = cmpEq (List.replicate bs.length 0) (valsOf bs) := by
  induction bs with
  | nil => rfl
  | cons b bs ih =>
    simp only [compareArrRight, valsOf, List.map_cons, List.length_cons, List.replicate_succ,
      cmpEq, ih]

theorem compareArray_left_nil (as : List (Option Int)) :
    compareArray as [] = cmpEq (valsOf as) (List.replicate as.length 0) := by
  induction as with
  | nil => rfl
  | cons a as ih =>
    simp only [compareArray, valsOf, List.map_cons, List.length_cons, List.replicate_succ,
      cmpEq, ih]

theorem padZ_cons (n : Nat) (a : Int) (as : List Int) :
    padZ (n + 1) (a :: as) = a :: padZ n as := by
  simp [padZ, List.length_cons, Nat.succ_sub_succ]

theorem padZ_length {n : Nat} {a : List Int} (h : a.length ≤ n) : (padZ n a).length = n := by
  simp [padZ]
  omega

theorem compareArray_eq_pad :
    ∀ a b : List (Option Int),
      compareArray a b =
        cmpEq (padZ (max a.length b.length) (valsOf a)) (padZ (max a.length b.length) (valsOf b)) := by
  intro a
  induction a with
  | nil =>
    intro b
    cases b with
    | nil => rfl
    | cons x bs =>
      simp only [List.length_nil, Nat.zero_max]
      have h1 : padZ (x :: bs).length (valsOf []) = List.replicate (x :: bs).length 0 := by
        simp [padZ, valsOf]
      have h2 : padZ (x :: bs).length (valsOf (x :: bs)) = valsOf (x :: bs) := by
        simp [padZ, valsOf]
      rw [h1, h2]
      exact compareArrRight_eq (x :: bs)
  | cons a as ih =>
    intro b
    cases b with
    | nil =>
      simp only [List.length_nil, Nat.max_zero]
      have h1 : padZ (a :: as).length (valsOf (a :: as)) = valsOf (a :: as) := by
        simp [padZ, valsOf]
      have h2 : padZ (a :: as).length (valsOf []) = List.replicate (a :: as).length 0 := by
        simp [padZ, valsOf]
      rw [h1, h2]
      exact compareArray_left_nil (a :: as)
    | cons b bs =>
      have hmax : max (a :: as).length (b :: bs).length = max as.length bs.length + 1 := by
        simp [List.length_cons]
        omega
      rw [hmax]
      simp only [valsOf, List.map_cons]
      rw [padZ_cons, padZ_cons]
      show compareArray (a :: as) (b :: bs) =
        cmpEq (segVal a :: padZ (max as.length bs.length) (valsOf as))
          (segVal b :: padZ (max as.length bs.length) (valsOf bs))
      simp only [compareArray, cmpEq]
      rw [ih bs]

theorem compareArray_eq_padN :
    ∀ (a b : List (Option Int)) (n : Nat), a.length ≤ n → b.length ≤ n →
      compareArray a b = cmpEq (padZ n (valsOf a)) (padZ n (valsOf b)) := by
  intro a b n ha hb
  set m := max a.length b.length with hm
  have hmn : m ≤ n := by omega
  have hva : (valsOf a).length = a.length := by simp [valsOf]
  have hvb : (valsOf b).length = b.length := by simp [valsOf]
  have hsplit : ∀ x : List (Option Int), x.length ≤ m →
      padZ n (valsOf x) = padZ m (valsOf x) ++ List.replicate (n - m) 0 := by
    intro x hx
    have hvx : (valsOf x).length = x.length := by simp [valsOf]
    simp only [padZ, List.append_assoc]
    congr 1
    rw [← List.replicate_add]
    congr 1
    omega
  rw [hsplit a (by omega), hsplit b (by omega)]
  have hlen : (padZ m (valsOf a)).length = (padZ m (valsOf b)).length := by
    rw [padZ_length (by omega), padZ_length (by omega)]
  rw [cmpEq_append hlen]
  rw [compareArray_eq_pad]
  rw [cmpEq_replicate_zero]
  split <;> simp_all

theorem compareArray_range (a b : List (Option Int)) :
    compareArray a b = -1 ∨ compareArray a b = 0 ∨ compareArray a b = 1 := by
  rw [compareArray_eq_pad]
  exact cmpEq_range _ _

theorem compareArray_antisym (a b : List (Option Int)) :
    compareArray b a = -compareArray a b := by
  rw [compareArray_eq_pad, compareArray_eq_pad, Nat.max_comm b.length a.length]
  exact cmpEq_antisym _ _

theorem compareArray_trans_le {a b c : List (Option Int)}
    (hab : compareArray a b ≤ 0) (hbc : compareArray b c ≤ 0) : compareArray a c ≤ 0 := by
  set n := max a.length (max b.length c.length) with hn
  have hna : a.length ≤ n := by omega
  have hnb : b.length ≤ n := by omega
  have hnc : c.length ≤ n := by omega
  rw [compareArray_eq_padN a b n hna hnb] at hab
  rw [compareArray_eq_padN b c n hnb hnc] at hbc
  rw [compareArray_eq_padN a c n hna hnc]
  have hla : (padZ n (valsOf a)).length = n := padZ_length (by simp [valsOf]; omega)
  have hlb : (padZ n (valsOf b)).length = n := padZ_length (by simp [valsOf]; omega)
  have hlc : (padZ n (valsOf c)).length = n := padZ_length (by simp [valsOf]; omega)
  rcases cmpEq_range (padZ n (valsOf a)) (padZ n (valsOf b)) with h1 | h1 | h1
  · rcases cmpEq_range (padZ n (valsOf b)) (padZ n (valsOf c)) with h2 | h2 | h2
    · have := cmpEq_trans_neg (hla.trans hlb.symm) (hlb.trans hlc.symm) h1 h2
      omega
    · have heq := cmpEq_zero_eq (hlb.trans hlc.symm) h2
      rw [← heq]
      omega
    · omega
  · have heq := cmpEq_zero_eq (hla.trans hlb.symm) h1
    rw [heq]
    exact hbc
  · omega

theorem compareArray_pos_eq :
    ∀ (a b : List Nat), (∀ x ∈ a, 1 ≤ x) → (∀ x ∈ b, 1 ≤ x) →
      compareArray (a.map (fun (n : Nat) => (some ((n : Int)) : Option Int)))
        (b.map (fun (n : Nat) => (some ((n : Int)) : Option Int))) = 0 →
      a = b := by
  intro a
  induction a with
  | nil =>
    intro b _ hb h0
    cases b with
    | nil => rfl
    | cons x bs =>
      exfalso
      have hx : 1 ≤ x := hb x (by simp)
      have h0' : compareArrRight
          (some ((x : Int)) :: bs.map (fun (n : Nat) => (some ((n : Int)) : Option Int))) = 0 := h0
      simp only [compareArrRight, segVal_some] at h0'
      split at h0' <;> omega
  | cons a as ih =>
    intro b ha hb h0
    cases b with
    | nil =>
      exfalso
      have hx : 1 ≤ a := ha a (by simp)
      have h0' : compareArray
          (some ((a : Int)) :: as.map (fun (n : Nat) => (some ((n : Int)) : Option Int))) [] = 0 := h0
      simp only [compareArray, segVal_some] at h0'
      split at h0'
      · omega
      · split at h0' <;> omega
    | cons b bs =>
      have h0' : compareArray
          (some ((a : Int)) :: as.map (fun (n : Nat) => (some ((n : Int)) : Option Int)))
          (some ((b : Int)) :: bs.map (fun (n : Nat) => (some ((n : Int)) : Option Int))) = 0 := h0
      simp only [compareArray, segVal_some] at h0'
      by_cases h1 : (a : Int) < (b : Int)
      · rw [if_pos h1] at h0'; omega
      · rw [if_neg h1] at h0'
        by_cases h2 : (b : Int) < (a : Int)
        · rw [if_pos h2] at h0'; omega
        · rw [if_neg h2] at h0'
          have hab : a = b := by omega
          subst hab
          rw [ih bs (fun x hx => ha x (by simp [hx])) (fun x hx => hb x (by simp [hx])) h0']

mutual
theorem buildRows_map_num : ∀ (l : List CNode) (pre : List Nat) (cnt : Nat),
    (buildRows l pre cnt).map Row.numbering = (buildArrs l pre cnt).map renderNum
  | [], _, _ => by simp [buildRows, buildArrs]
  | CNode.more :: rest, pre, cnt => by
    simp only [buildRows, buildArrs]
    exact buildRows_map_num rest pre cnt
  | CNode.comment b a u d sc t rep :: rest, pre, cnt => by
    simp only [buildRows, buildArrs, List.map_cons, List.map_append]
    rw [buildRowsReplies_map_num rep (pre ++ [cnt + 1]), buildRows_map_num rest pre (cnt + 1)]
    rfl
theorem buildRowsReplies_map_num : ∀ (rep : Option (List CNode)) (arr : List Nat),
    (buildRowsReplies rep arr).map Row.numbering = (buildArrsReplies rep arr).map renderNum
  | some children, arr => by
    simp only [buildRowsReplies, buildArrsReplies]
    exact buildRows_map_num children arr 0
  | none, _ => by simp [buildRowsReplies, buildArrsReplies]
end

mutual
theorem buildRows_map_level : ∀ (l : List CNode) (pre : List Nat) (cnt : Nat),
    (buildRows l pre cnt).map Row.level = (buildArrs l pre cnt).map List.length
  | [], _, _ => by simp [buildRows, buildArrs]
  | CNode.more :: rest, pre, cnt => by
    simp only [buildRows, buildArrs]
    exact buildRows_map_level rest pre cnt
  | CNode.comment b a u d sc t rep :: rest, pre, cnt => by
    simp only [buildRows, buildArrs, List.map_cons, List.map_append]
    rw [buildRowsReplies_map_level rep (pre ++ [cnt + 1]), buildRows_map_level rest pre (cnt + 1)]
    rfl
theorem buildRowsReplies_map_level : ∀ (rep : Option (List CNode)) (arr : List Nat),
    (buildRowsReplies rep arr).map Row.level = (buildArrsReplies rep arr).map List.length
  | some children, arr => by
    simp only [buildRowsReplies, buildArrsReplies]
    exact buildRows_map_level children arr 0
  | none, _ => by simp [buildRowsReplies, buildArrsReplies]
end

-- Shape of every produced numbering array: the parent prefix extended by a
-- first counter value above the running count, all segments positive.
mutual
theorem buildArrs_shape : ∀ (l : List CNode) (pre : List Nat) (cnt : Nat),
    ∀ arr ∈ buildArrs l pre cnt,
      ∃ k rest, arr = pre ++ k :: rest ∧ cnt < k ∧ ∀ x ∈ k :: rest, 1 ≤ x
  | [], _, _ => by intro arr h; simp [buildArrs] at h
  | CNode.more :: restN, pre, cnt => by
    intro arr h
    simp only [buildArrs] at h
    exact buildArrs_shape restN pre cnt arr h
  | CNode.comment b a u d sc t rep :: restN, pre, cnt => by
    intro arr h
    simp only [buildArrs, List.mem_cons, List.mem_append] at h
    rcases h with h | h | h
    · exact ⟨cnt + 1, [], by simpa using h, by omega, by simp⟩
    · obtain ⟨k, rest2, heq, hk, hpos⟩ :=
        buildArrsReplies_shape rep (pre ++ [cnt + 1]) arr h
      refine ⟨cnt + 1, k :: rest2, by simpa using heq, by omega, ?_⟩
      intro x hx
      rcases List.mem_cons.mp hx with hx | hx
      · omega
      · exact hpos x hx
    · obtain ⟨k, rest2, heq, hk, hpos⟩ := buildArrs_shape restN pre (cnt + 1) arr h
      exact ⟨k, rest2, heq, by omega, hpos⟩
theorem buildArrsReplies_shape : ∀ (rep : Option (List CNode)) (arr0 : List Nat),
    ∀ arr ∈ buildArrsReplies rep arr0,
      ∃ k rest, arr = arr0 ++ k :: rest ∧ 0 < k ∧ ∀ x ∈ k :: rest, 1 ≤ x
  | some children, arr0 => by
    intro arr h
    simp only [buildArrsReplies] at h
    exact buildArrs_shape children arr0 0 arr h
  | none, _ => by intro arr h; simp [buildArrsReplies] at h
end

theorem parseNumbering_renderNum {a : List Nat} (h : a ≠ []) :
    parseNumbering (renderNum a) = a.map (fun (n : Nat) => (some ((n : Int)) : Option Int)) := by
  rw [parseNumbering, jsSplitDot_renderNum h, List.map_map]
  apply List.map_congr_left
  intro n _
  show parseIntJs (natToString n).data = some ((n : Int))
  exact parseIntJs_natChars n

-- ===== C3: hierarchical comparator =====

/-- Claim C3: the comparator used for the numbering column splits the two
strings on dots, parses the segments and compares them numerically with
missing segments read as 0, returning a value in -1, 0, 1; the string of
2.9 sorts before that of 2.10 and 2 before 2.1; the comparison is
antisymmetric and transitive everywhere and, on the numbering strings the
flattener produces, comparing equal forces the strings to be identical, so
it is a total order there. -/
theorem c3_comparator :
    cmpNumbering "2.9" "2.10" = -1 ∧
      cmpNumbering "2" "2.1" = -1 ∧
      (∀ s t : String, cmpNumbering s t = -1 ∨ cmpNumbering s t = 0 ∨ cmpNumbering s t = 1) ∧
      (∀ s t : String, cmpNumbering t s = -cmpNumbering s t) ∧
      (∀ s t u : String,
        cmpNumbering s t ≤ 0 → cmpNumbering t u ≤ 0 → cmpNumbering s u ≤ 0) ∧
      (∀ l : List CNode, ∀ r1 ∈ buildTableData l, ∀ r2 ∈ buildTableData l,
        cmpNumbering r1.numbering r2.numbering = 0 → r1.numbering = r2.numbering) := by
  refine ⟨by decide, by decide, ?_, ?_, ?_, ?_⟩
  · intro s t
    exact compareArray_range _ _
  · intro s t
    exact compareArray_antisym _ _
  · intro s t u h1 h2
    exact compareArray_trans_le h1 h2
  · intro l r1 h1 r2 h2 h0
    have hm1 : r1.numbering ∈ (buildTableData l).map Row.numbering :=
      List.mem_map_of_mem Row.numbering h1
    have hm2 : r2.numbering ∈ (buildTableData l).map Row.numbering :=
      List.mem_map_of_mem Row.numbering h2
    rw [buildTableData, buildRows_map_num] at hm1 hm2
    obtain ⟨a1, ha1, he1⟩ := List.mem_map.mp hm1
    obtain ⟨a2, ha2, he2⟩ := List.mem_map.mp hm2
    obtain ⟨k1, rest1, hs1, _, hp1⟩ := buildArrs_shape l [] 0 a1 ha1
    obtain ⟨k2, rest2, hs2, _, hp2⟩ := buildArrs_shape l [] 0 a2 ha2
    have hne1 : a1 ≠ [] := by rw [hs1]; simp
    have hne2 : a2 ≠ [] := by rw [hs2]; simp
    rw [← he1, ← he2] at h0 ⊢
    rw [cmpNumbering, parseNumbering_renderNum hne1, parseNumbering_renderNum hne2] at h0
    have := compareArray_pos_eq a1 a2 (by rw [hs1]; simpa using hp1)
      (by rw [hs2]; simpa using hp2) h0
    rw [this]

/-- Witness for C3: the transitivity component applied at three concrete
numbering strings. -/
theorem c3_witness :
    cmpNumbering "1.2" "1.10" ≤ 0 ∧ cmpNumbering "1.10" "2" ≤ 0 ∧
      cmpNumbering "1.2" "2" ≤ 0 :=
  ⟨by decide, by decide,
    c3_comparator.2.2.2.2.1 "1.2" "1.10" "2" (by decide) (by decide)⟩

-- ===== String order lemmas (for the body and author columns) =====

theorem jsStrLt_asymm : ∀ {x y : List Char}, jsStrLt x y = true → jsStrLt y x = false := by
  intro x
  induction x with
  | nil =>
    intro y h
    cases y with
    | nil => simp [jsStrLt] at h
    | cons b bs => simp [jsStrLt]
  | cons a as ih =>
    intro y h
    cases y with
    | nil => simp [jsStrLt] at h
    | cons b bs =>
      simp only [jsStrLt] at h ⊢
      by_cases h1 : a < b
      · rw [if_neg (asymm h1), if_pos h1]
      · rw [if_neg h1] at h
        by_cases h2 : b < a
        · rw [if_pos h2] at h
          exact absurd h (by simp)
        · rw [if_neg h2] at h
          rw [if_neg h2, if_neg h1]
          exact ih h

theorem jsStrLt_trichotomy :
    ∀ x y : List Char, jsStrLt x y = true ∨ jsStrLt y x = true ∨ x = y := by
  intro x
  induction x with
  | nil =>
    intro y
    cases y with
    | nil => right; right; rfl
    | cons b bs => left; simp [jsStrLt]
  | cons a as ih =>
    intro y
    cases y with
    | nil => right; left; simp [jsStrLt]
    | cons b bs =>
      rcases lt_trichotomy a b with h | h | h
      · left; simp [jsStrLt, h]
      · subst h
        rcases ih bs with h | h | h
        · left; simp [jsStrLt, h, lt_irrefl]
        · right; left; simp [jsStrLt, h, lt_irrefl]
        · right; right; rw [h]
      · right; left; simp [jsStrLt, h]

theorem jsStrLt_trans :
    ∀ {x y z : List Char}, jsStrLt x y = true → jsStrLt y z = true → jsStrLt x z = true := by
  intro x
  induction x with
  | nil =>
    intro y z hxy hyz
    cases y with
    | nil => simp [jsStrLt] at hxy
    | cons b bs =>
      cases z with
      | nil => simp [jsStrLt] at hyz
      | cons c cs => simp [jsStrLt]
  | cons a as ih =>
    intro y z hxy hyz
    cases y with
    | nil => simp [jsStrLt] at hxy
    | cons b bs =>
      cases z with
      | nil => simp [jsStrLt] at hyz
      | cons c cs =>
        simp only [jsStrLt] at hxy hyz ⊢
        by_cases h1 : a < b
        · by_cases h2 : b < c
          · rw [if_pos (lt_trans h1 h2)]
          · rw [if_neg h2] at hyz
            by_cases h3 : c < b
            · rw [if_pos h3] at hyz
              exact absurd hyz (by simp)
            · have hbc : b = c := le_antisymm (not_lt.mp h3) (not_lt.mp h2)
              subst hbc
              rw [if_pos h1]
        · rw [if_neg h1] at hxy
          by_cases h2 : b < a
          · rw [if_pos h2] at hxy
            exact absurd hxy (by simp)
          · have hab : a = b := le_antisymm (not_lt.mp h2) (not_lt.mp h1)
            subst hab
            rw [if_neg h1] at hxy
            by_cases h3 : a < c
            · rw [if_pos h3]
            · rw [if_neg h3] at hyz ⊢
              by_cases h4 : c < a
              · rw [if_pos h4] at hyz
                exact absurd hyz (by simp)
              · rw [if_neg h4] at hyz ⊢
                exact ih hxy hyz

-- ===== mergeSort congruence (the sort only reads the comparator on pairs
-- of list elements) =====

theorem merge_congr {α : Type} (le le' : α → α → Bool) :
    ∀ (l1 l2 : List α), (∀ a ∈ l1, ∀ b ∈ l2, le a b = le' a b) →
      List.merge l1 l2 le = List.merge l1 l2 le'
  | [], l2, _ => by simp
  | x :: xs, [], _ => by simp
  | x :: xs, y :: ys, h => by
    rw [List.cons_merge_cons, List.cons_merge_cons, h x (by simp) y (by simp)]
    split
    · rw [merge_congr le le' xs (y :: ys) (fun a ha b hb => h a (by simp [ha]) b hb)]
    · rw [merge_congr le le' (x :: xs) ys (fun a ha b hb => h a ha b (by simp [hb]))]

theorem mergeSort_congr {α : Type} (le le' : α → α → Bool) :
    ∀ (l : List α), (∀ a ∈ l, ∀ b ∈ l, le a b = le' a b) →
      l.mergeSort le = l.mergeSort le'
  | [], _ => by simp
  | [a], _ => by simp
  | a :: b :: xs, h => by
    have hl1 : (List.splitInTwo ⟨a :: b :: xs, rfl⟩).1.1.length < xs.length + 1 + 1 := by
      simp [List.splitInTwo_fst]
      omega
    have hl2 : (List.splitInTwo ⟨a :: b :: xs, rfl⟩).2.1.length < xs.length + 1 + 1 := by
      simp [List.splitInTwo_snd]
      omega
    have hm1 : ∀ x ∈ (List.splitInTwo ⟨a :: b :: xs, rfl⟩).1.1, x ∈ a :: b :: xs := by
      intro x hx
      rw [List.splitInTwo_fst] at hx
      exact List.mem_of_mem_take hx
    have hm2 : ∀ x ∈ (List.splitInTwo ⟨a :: b :: xs, rfl⟩).2.1, x ∈ a :: b :: xs := by
      intro x hx
      rw [List.splitInTwo_snd] at hx
      exact List.mem_of_mem_drop hx
    rw [List.mergeSort, List.mergeSort]
    rw [mergeSort_congr le le' (List.splitInTwo ⟨a :: b :: xs, rfl⟩).1.1
      (fun x hx y hy => h x (hm1 x hx) y (hm1 y hy))]
    rw [mergeSort_congr le le' (List.splitInTwo ⟨a :: b :: xs, rfl⟩).2.1
      (fun x hx y hy => h x (hm2 x hx) y (hm2 y hy))]
    apply merge_congr
    intro x hx y hy
    have hx2 : x ∈ a :: b :: xs := hm1 x (List.mem_mergeSort.mp hx)
    have hy2 : y ∈ a :: b :: xs := hm2 y (List.mem_mergeSort.mp hy)
    exact h x hx2 y hy2
termination_by l => l.length

-- A pair that sorts as equal keeps its order across two stable sorts, for
-- comparators that agree on the list with transitive total ones.
theorem pair_stable_two_sorts (td : List Row) (a b : Row)
    (cmp1 cmp2 cmp1' cmp2' : Row → Row → Int)
    (hag1 : ∀ x ∈ td, ∀ y ∈ td, cmp1 x y = cmp1' x y)
    (hag2 : ∀ x ∈ td, ∀ y ∈ td, cmp2 x y = cmp2' x y)
    (ht1 : ∀ x y z, cmp1' x y ≤ 0 → cmp1' y z ≤ 0 → cmp1' x z ≤ 0)
    (hto1 : ∀ x y, cmp1' x y ≤ 0 ∨ cmp1' y x ≤ 0)
    (ht2 : ∀ x y z, cmp2' x y ≤ 0 → cmp2' y z ≤ 0 → cmp2' x z ≤ 0)
    (hto2 : ∀ x y, cmp2' x y ≤ 0 ∨ cmp2' y x ≤ 0)
    (hsub : [a, b].Sublist td)
    (h1 : cmp1' a b ≤ 0) (h2 : cmp2' a b ≤ 0) :
    [a, b].Sublist (jsSortBy cmp2 (jsSortBy cmp1 td)) := by
  have le1' : Row → Row → Bool := fun x y => decide (cmp1' x y ≤ 0)
  have e1 : jsSortBy cmp1 td = td.mergeSort (fun x y => decide (cmp1' x y ≤ 0)) := by
    apply mergeSort_congr
    intro x hx y hy
    simp only [decide_eq_decide]
    rw [hag1 x hx y hy]
  have htrans1 : ∀ x y z : Row, decide (cmp1' x y ≤ 0) → decide (cmp1' y z ≤ 0) →
      decide (cmp1' x z ≤ 0) = true := by
    intro x y z hxy hyz
    simp only [decide_eq_true_eq] at hxy hyz ⊢
    exact ht1 x y z hxy hyz
  have htotal1 : ∀ x y : Row, decide (cmp1' x y ≤ 0) || decide (cmp1' y x ≤ 0) := by
    intro x y
    rcases hto1 x y with h | h <;> simp [h]
  have step1 : [a, b].Sublist (td.mergeSort (fun x y => decide (cmp1' x y ≤ 0))) :=
    List.pair_sublist_mergeSort htrans1 htotal1 (by simpa using h1) hsub
  rw [e1]
  have hmem1 : ∀ x ∈ td.mergeSort (fun x y => decide (cmp1' x y ≤ 0)), x ∈ td := by
    intro x hx
    exact List.mem_mergeSort.mp hx
  have e2 : jsSortBy cmp2 (td.mergeSort (fun x y => decide (cmp1' x y ≤ 0))) =
      (td.mergeSort (fun x y => decide (cmp1' x y ≤ 0))).mergeSort
        (fun x y => decide (cmp2' x y ≤ 0)) := by
    apply mergeSort_congr
    intro x hx y hy
    simp only [decide_eq_decide]
    rw [hag2 x (hmem1 x hx) y (hmem1 y hy)]
  rw [e2]
  have htrans2 : ∀ x y z : Row, decide (cmp2' x y ≤ 0) → decide (cmp2' y z ≤ 0) →
      decide (cmp2' x z ≤ 0) = true := by
    intro x y z hxy hyz
    simp only [decide_eq_true_eq] at hxy hyz ⊢
    exact ht2 x y z hxy hyz
  have htotal2 : ∀ x y : Row, decide (cmp2' x y ≤ 0) || decide (cmp2' y x ≤ 0) := by
    intro x y
    rcases hto2 x y with h | h <;> simp [h]
  exact List.pair_sublist_mergeSort htrans2 htotal2 (by simpa using h2) step1

theorem dirCases (asc : Bool) : (if asc then (1 : Int) else -1) = 1 ∨
    (if asc then (1 : Int) else -1) = -1 := by
  cases asc
  · right; rfl
  · left; rfl

theorem subCmp_trans {d : Int} (hd : d = 1 ∨ d = -1) (x y z : Int)
    (h1 : (x - y) * d ≤ 0) (h2 : (y - z) * d ≤ 0) : (x - z) * d ≤ 0 := by
  rcases hd with h | h <;> subst h <;> omega

theorem subCmp_total {d : Int} (hd : d = 1 ∨ d = -1) (x y : Int) :
    (x - y) * d ≤ 0 ∨ (y - x) * d ≤ 0 := by
  rcases hd with h | h <;> subst h <;> omega

theorem numbCmp_trans {d : Int} (hd : d = 1 ∨ d = -1) (s t u : String)
    (h1 : cmpNumbering s t * d ≤ 0) (h2 : cmpNumbering t u * d ≤ 0) :
    cmpNumbering s u * d ≤ 0 := by
  rcases hd with h | h <;> subst h
  · rw [cmpNumbering] at h1 h2 ⊢
    have h1' : compareArray (parseNumbering s) (parseNumbering t) ≤ 0 := by omega
    have h2' : compareArray (parseNumbering t) (parseNumbering u) ≤ 0 := by omega
    have := compareArray_trans_le h1' h2'
    omega
  · rw [cmpNumbering] at h1 h2 ⊢
    have hts : compareArray (parseNumbering t) (parseNumbering s) =
        -compareArray (parseNumbering s) (parseNumbering t) := compareArray_antisym _ _
    have hut : compareArray (parseNumbering u) (parseNumbering t) =
        -compareArray (parseNumbering t) (parseNumbering u) := compareArray_antisym _ _
    have hus : compareArray (parseNumbering u) (parseNumbering s) =
        -compareArray (parseNumbering s) (parseNumbering u) := compareArray_antisym _ _
    have h1' : compareArray (parseNumbering t) (parseNumbering s) ≤ 0 := by rw [hts]; omega
    have h2' : compareArray (parseNumbering u) (parseNumbering t) ≤ 0 := by rw [hut]; omega
    have := compareArray_trans_le h2' h1'
    rw [hus] at this
    omega

theorem numbCmp_total {d : Int} (hd : d = 1 ∨ d = -1) (s t : String) :
    cmpNumbering s t * d ≤ 0 ∨ cmpNumbering t s * d ≤ 0 := by
  have h := compareArray_antisym (parseNumbering s) (parseNumbering t)
  rw [cmpNumbering, cmpNumbering, h]
  rcases hd with h | h <;> subst h <;> omega

theorem strCmpDir_le_one {x y : List Char} :
    strCmpDir 1 x y ≤ 0 ↔ jsStrLt y x = false := by
  unfold strCmpDir
  by_cases h1 : jsStrLt x y = true
  · rw [if_pos h1, jsStrLt_asymm h1]
    simp
  · rw [if_neg h1]
    by_cases h2 : jsStrLt y x = true
    · rw [if_pos h2]
      simp [h2]
    · rw [if_neg h2]
      simp only [Bool.not_eq_true] at h2
      simp [h2]

theorem strCmpDir_le_negone {x y : List Char} :
    strCmpDir (-1) x y ≤ 0 ↔ jsStrLt x y = false := by
  unfold strCmpDir
  by_cases h1 : jsStrLt x y = true
  · rw [if_pos h1]
    simp [h1]
  · rw [if_neg h1]
    simp only [Bool.not_eq_true] at h1
    by_cases h2 : jsStrLt y x = true
    · rw [if_pos h2]
      simp [h1]
    · rw [if_neg h2]
      simp [h1]

theorem jsStrLt_nlt_trans {x y z : List Char}
    (h1 : jsStrLt y x = false) (h2 : jsStrLt z y = false) : jsStrLt z x = false := by
  by_contra hcon
  have hzx : jsStrLt z x = true := by
    revert hcon
    cases jsStrLt z x <;> simp
  rcases jsStrLt_trichotomy y z with h | h | h
  · have : jsStrLt y x = true := jsStrLt_trans h hzx
    rw [this] at h1
    exact absurd h1 (by simp)
  · rw [h] at h2
    exact absurd h2 (by simp)
  · rw [← h] at hzx
    rw [hzx] at h1
    exact absurd h1 (by simp)

theorem strCmpDir_trans {d : Int} (hd : d = 1 ∨ d = -1) (x y z : List Char)
    (h1 : strCmpDir d x y ≤ 0) (h2 : strCmpDir d y z ≤ 0) : strCmpDir d x z ≤ 0 := by
  rcases hd with h | h <;> subst h
  · rw [strCmpDir_le_one] at h1 h2 ⊢
    exact jsStrLt_nlt_trans h1 h2
  · rw [strCmpDir_le_negone] at h1 h2 ⊢
    exact @jsStrLt_nlt_trans z y x h2 h1

theorem strCmpDir_total {d : Int} (hd : d = 1 ∨ d = -1) (x y : List Char) :
    strCmpDir d x y ≤ 0 ∨ strCmpDir d y x ≤ 0 := by
  unfold strCmpDir
  by_cases h1 : jsStrLt x y = true
  · rw [if_pos h1, jsStrLt_asymm h1, if_neg (by simp), if_pos h1]
    rcases hd with h | h <;> subst h <;> omega
  · rw [if_neg h1]
    by_cases h2 : jsStrLt y x = true
    · rw [if_pos h2, if_pos h2]
      rcases hd with h | h <;> subst h <;> omega
    · rw [if_neg h2, if_neg h2, if_neg h1]
      omega

theorem colCmp_eval_numbering (asc : Bool) (a b : Row) :
    colCmp asc "numbering" a b =
      cmpNumbering a.numbering b.numbering * (if asc then 1 else -1) := rfl

theorem colCmp_eval_dateUtc (asc : Bool) (a b : Row) :
    colCmp asc "dateUtc" a b =
      (jsOrZero a.dateUtc - jsOrZero b.dateUtc) * (if asc then 1 else -1) := rfl

theorem colCmp_eval_upvotes (asc : Bool) (a b : Row) :
    colCmp asc "upvotes" a b = (a.upvotes - b.upvotes) * (if asc then 1 else -1) := rfl

theorem colCmp_eval_downvotes (asc : Bool) (a b : Row) :
    colCmp asc "downvotes" a b = (a.downvotes - b.downvotes) * (if asc then 1 else -1) := rfl

theorem colCmp_eval_level (asc : Bool) (a b : Row) :
    colCmp asc "level" a b = ((a.level : Int) - (b.level : Int)) * (if asc then 1 else -1) := rfl

theorem colCmp_eval_score {asc : Bool} {a b : Row} {x y : Int}
    (hx : a.score = some x) (hy : b.score = some y) :
    colCmp asc "score" a b = (x - y) * (if asc then 1 else -1) := by
  have : colCmp asc "score" a b =
      (match a.score, b.score with
       | some x, some y => (x - y) * (if asc then (1 : Int) else -1)
       | _, _ => 0) := rfl
  rw [this, hx, hy]

theorem colCmp_eval_body (asc : Bool) (a b : Row) :
    colCmp asc "body" a b =
      strCmpDir (if asc then 1 else -1) (jsLower a.body).data (jsLower b.body).data := rfl

theorem colCmp_eval_author (asc : Bool) (a b : Row) :
    colCmp asc "author" a b =
      strCmpDir (if asc then 1 else -1) (jsLower a.author).data (jsLower b.author).data := rfl

theorem mulZero_le {base : Int} (h : base * 1 = 0) (d : Int) : base * d ≤ 0 := by
  have hb : base = 0 := by omega
  rw [hb]
  simp

theorem strCmpDir_zero_any {x y : List Char} (h : strCmpDir 1 x y = 0) (d : Int) :
    strCmpDir d x y = 0 := by
  unfold strCmpDir at h ⊢
  by_cases h1 : jsStrLt x y = true
  · rw [if_pos h1] at h
    omega
  · rw [if_neg h1] at h ⊢
    by_cases h2 : jsStrLt y x = true
    · rw [if_pos h2] at h
      omega
    · rw [if_neg h2]

theorem scoreKeyCmp_trans (asc : Bool) (x y z : Row)
    (h1 : scoreKeyCmp asc x y ≤ 0) (h2 : scoreKeyCmp asc y z ≤ 0) :
    scoreKeyCmp asc x z ≤ 0 :=
  subCmp_trans (dirCases asc) _ _ _ h1 h2

theorem scoreKeyCmp_total (asc : Bool) (x y : Row) :
    scoreKeyCmp asc x y ≤ 0 ∨ scoreKeyCmp asc y x ≤ 0 :=
  subCmp_total (dirCases asc) _ _

theorem colCmp_score_agree {asc : Bool} {x y : Row}
    (hx : x.score ≠ none) (hy : y.score ≠ none) :
    colCmp asc "score" x y = scoreKeyCmp asc x y := by
  cases hxs : x.score with
  | none => exact absurd hxs hx
  | some v =>
    cases hys : y.score with
    | none => exact absurd hys hy
    | some w =>
      rw [colCmp_eval_score hxs hys, scoreKeyCmp, hxs, hys]
      rfl

theorem sortTable_valid (s : AppState) (column : String)
    (hg : (!s.tableBuilt || s.tableData.isEmpty) = false)
    (hv : ¬ (¬ (column ∈ rowFieldNames) ∧ column ≠ "body")) :
    sortTable s column =
      { s with tableData := jsSortBy (colCmp s.sortAsc column) s.tableData
             , sortAsc := !s.sortAsc } := by
  simp [sortTable, hg, hv]

theorem jsSortBy_isEmpty (cmp : Row → Row → Int) (l : List Row) :
    (jsSortBy cmp l).isEmpty = l.isEmpty := by
  rcases l with _ | ⟨x, xs⟩
  · simp [jsSortBy]
  · have hlen : (jsSortBy cmp (x :: xs)).length = xs.length + 1 := by simp [jsSortBy]
    cases h : jsSortBy cmp (x :: xs) with
    | nil => rw [h] at hlen; simp at hlen
    | cons y ys => rfl

/-- Claim C5 as stated is false at a concrete input: for the two-row state
below, already ascending on upvotes with the direction flag ascending,
sorting the upvotes column twice leaves the rows in descending order, so
the pair, which compares unequal, does not return to its original relative
order. -/
theorem c5_counterexample :
    let r1 : Row := { numbering := "1", level := 1, body := "b1", author := "a"
                    , upvotes := 1, downvotes := 0, score := some 1, dateUtc := none }
    let r2 : Row := { numbering := "2", level := 1, body := "b2", author := "a"
                    , upvotes := 2, downvotes := 0, score := some 2, dateUtc := none }
    let s0 : AppState := { tableData := [r1, r2], tableBuilt := true, sortAsc := true }
    (sortTable (sortTable s0 "upvotes") "upvotes").tableData = [r2, r1] ∧
      colCmp true "upvotes" r1 r2 ≠ 0 ∧ r1 ≠ r2 := by
  intro r1 r2 s0
  refine ⟨?_, by decide, by decide⟩
  have h1 : sortTable s0 "upvotes" =
      { s0 with tableData := jsSortBy (colCmp true "upvotes") s0.tableData
              , sortAsc := false } :=
    sortTable_valid s0 "upvotes" (by decide) (by decide)
  have e1 : jsSortBy (colCmp true "upvotes") s0.tableData = [r1, r2] := by
    show List.mergeSort [r1, r2] _ = [r1, r2]
    rw [mergeSort_pair]
    rw [if_pos (by decide)]
  rw [h1, e1]
  have h2 := sortTable_valid
    { tableData := [r1, r2], tableBuilt := s0.tableBuilt, sortAsc := false } "upvotes"
    (by decide) (by decide)
  rw [h2]
  show jsSortBy (colCmp false "upvotes") [r1, r2] = [r2, r1]
  show List.mergeSort [r1, r2] _ = [r2, r1]
  rw [mergeSort_pair]
  rw [if_neg (by decide)]

/-- Claim C5 (amended): invoking the Sorter twice on the same column with
no intervening sort restores the original relative order of every pair of
elements that compare equal under that column's comparison rule (for the
score column, provided the records carry numeric scores); pairs that
compare unequal end up ordered by the second invocation's direction
instead. -/
theorem c5_double_sort_equal_pairs (s : AppState) (column : String) (a b : Row)
    (hscore : column = "score" → ∀ r ∈ s.tableData, r.score ≠ none)
    (hsub : [a, b].Sublist s.tableData)
    (heq : colCmp true column a b = 0) :
    [a, b].Sublist (sortTable (sortTable s column) column).tableData := by
  by_cases hg : (!s.tableBuilt || s.tableData.isEmpty) = true
  · have e : sortTable s column = s := by simp [sortTable, hg]
    rw [e, e]
    exact hsub
  · replace hg : (!s.tableBuilt || s.tableData.isEmpty) = false := by
      revert hg; cases (!s.tableBuilt || s.tableData.isEmpty) <;> simp
    by_cases hv : ¬ (column ∈ rowFieldNames) ∧ column ≠ "body"
    · have e : sortTable s column = s := by
        rw [sortTable]
        rw [if_neg (by simp [hg])]
        rw [if_pos hv]
      rw [e, e]
      exact hsub
    · have h1 := sortTable_valid s column hg hv
      have hbuilt : s.tableBuilt = true := by
        revert hg; cases s.tableBuilt <;> simp
      have hg2 : (!(sortTable s column).tableBuilt ||
          (sortTable s column).tableData.isEmpty) = false := by
        rw [h1]
        show (!s.tableBuilt || (jsSortBy (colCmp s.sortAsc column) s.tableData).isEmpty) = false
        rw [jsSortBy_isEmpty]
        exact hg
      have h2 := sortTable_valid (sortTable s column) column hg2 hv
      rw [h2, h1]
      show [a, b].Sublist (jsSortBy (colCmp (!s.sortAsc) column)
        (jsSortBy (colCmp s.sortAsc column) s.tableData))
      have hcases : column = "numbering" ∨ column = "level" ∨ column = "body" ∨
          column = "author" ∨ column = "upvotes" ∨ column = "downvotes" ∨
          column = "score" ∨ column = "dateUtc" := by
        rcases not_and_or.mp hv with h | h
        · have := not_not.mp h
          simpa [rowFieldNames] using this
        · right; right; left
          exact not_not.mp (by simpa using h)
      have hamem : a ∈ s.tableData := hsub.subset (by simp)
      have hbmem : b ∈ s.tableData := hsub.subset (by simp)
      rcases hcases with rfl | rfl | rfl | rfl | rfl | rfl | rfl | rfl
      · -- numbering
        rw [colCmp_eval_numbering, if_pos rfl] at heq
        refine pair_stable_two_sorts s.tableData a b _ _
          (colCmp s.sortAsc "numbering") (colCmp (!s.sortAsc) "numbering")
          (fun x _ y _ => rfl) (fun x _ y _ => rfl) ?_ ?_ ?_ ?_ hsub ?_ ?_
        · intro x y z hx hy
          rw [colCmp_eval_numbering] at hx hy ⊢
          exact numbCmp_trans (dirCases _) _ _ _ hx hy
        · intro x y
          rw [colCmp_eval_numbering, colCmp_eval_numbering]
          exact numbCmp_total (dirCases _) _ _
        · intro x y z hx hy
          rw [colCmp_eval_numbering] at hx hy ⊢
          exact numbCmp_trans (dirCases _) _ _ _ hx hy
        · intro x y
          rw [colCmp_eval_numbering, colCmp_eval_numbering]
          exact numbCmp_total (dirCases _) _ _
        · rw [colCmp_eval_numbering]
          exact mulZero_le heq _
        · rw [colCmp_eval_numbering]
          exact mulZero_le heq _
      · -- level
        rw [colCmp_eval_level, if_pos rfl] at heq
        refine pair_stable_two_sorts s.tableData a b _ _
          (colCmp s.sortAsc "level") (colCmp (!s.sortAsc) "level")
          (fun x _ y _ => rfl) (fun x _ y _ => rfl) ?_ ?_ ?_ ?_ hsub ?_ ?_
        · intro x y z hx hy
          rw [colCmp_eval_level] at hx hy ⊢
          exact subCmp_trans (dirCases _) _ _ _ hx hy
        · intro x y
          rw [colCmp_eval_level, colCmp_eval_level]
          exact subCmp_total (dirCases _) _ _
        · intro x y z hx hy
          rw [colCmp_eval_level] at hx hy ⊢
          exact subCmp_trans (dirCases _) _ _ _ hx hy
        · intro x y
          rw [colCmp_eval_level, colCmp_eval_level]
          exact subCmp_total (dirCases _) _ _
        · rw [colCmp_eval_level]
          exact mulZero_le heq _
        · rw [colCmp_eval_level]
          exact mulZero_le heq _
      · -- body
        rw [colCmp_eval_body, if_pos rfl] at heq
        refine pair_stable_two_sorts s.tableData a b _ _
          (colCmp s.sortAsc "body") (colCmp (!s.sortAsc) "body")
          (fun x _ y _ => rfl) (fun x _ y _ => rfl) ?_ ?_ ?_ ?_ hsub ?_ ?_
        · intro x y z hx hy
          rw [colCmp_eval_body] at hx hy ⊢
          exact strCmpDir_trans (dirCases _) _ _ _ hx hy
        · intro x y
          rw [colCmp_eval_body, colCmp_eval_body]
          exact strCmpDir_total (dirCases _) _ _
        · intro x y z hx hy
          rw [colCmp_eval_body] at hx hy ⊢
          exact strCmpDir_trans (dirCases _) _ _ _ hx hy
        · intro x y
          rw [colCmp_eval_body, colCmp_eval_body]
          exact strCmpDir_total (dirCases _) _ _
        · rw [colCmp_eval_body]
          exact le_of_eq (strCmpDir_zero_any heq _)
        · rw [colCmp_eval_body]
          exact le_of_eq (strCmpDir_zero_any heq _)
      · -- author
        rw [colCmp_eval_author, if_pos rfl] at heq
        refine pair_stable_two_sorts s.tableData a b _ _
          (colCmp s.sortAsc "author") (colCmp (!s.sortAsc) "author")
          (fun x _ y _ => rfl) (fun x _ y _ => rfl) ?_ ?_ ?_ ?_ hsub ?_ ?_
        · intro x y z hx hy
          rw [colCmp_eval_author] at hx hy ⊢
          exact strCmpDir_trans (dirCases _) _ _ _ hx hy
        · intro x y
          rw [colCmp_eval_author, colCmp_eval_author]
          exact strCmpDir_total (dirCases _) _ _
        · intro x y z hx hy
          rw [colCmp_eval_author] at hx hy ⊢
          exact strCmpDir_trans (dirCases _) _ _ _ hx hy
        · intro x y
          rw [colCmp_eval_author, colCmp_eval_author]
          exact strCmpDir_total (dirCases _) _ _
        · rw [colCmp_eval_author]
          exact le_of_eq (strCmpDir_zero_any heq _)
        · rw [colCmp_eval_author]
          exact le_of_eq (strCmpDir_zero_any heq _)
      · -- upvotes
        rw [colCmp_eval_upvotes, if_pos rfl] at heq
        refine pair_stable_two_sorts s.tableData a b _ _
          (colCmp s.sortAsc "upvotes") (colCmp (!s.sortAsc) "upvotes")
          (fun x _ y _ => rfl) (fun x _ y _ => rfl) ?_ ?_ ?_ ?_ hsub ?_ ?_
        · intro x y z hx hy
          rw [colCmp_eval_upvotes] at hx hy ⊢
          exact subCmp_trans (dirCases _) _ _ _ hx hy
        · intro x y
          rw [colCmp_eval_upvotes, colCmp_eval_upvotes]
          exact subCmp_total (dirCases _) _ _
        · intro x y z hx hy
          rw [colCmp_eval_upvotes] at hx hy ⊢
          exact subCmp_trans (dirCases _) _ _ _ hx hy
        · intro x y
          rw [colCmp_eval_upvotes, colCmp_eval_upvotes]
          exact subCmp_total (dirCases _) _ _
        · rw [colCmp_eval_upvotes]
          exact mulZero_le heq _
        · rw [colCmp_eval_upvotes]
          exact mulZero_le heq _
      · -- downvotes
        rw [colCmp_eval_downvotes, if_pos rfl] at heq
        refine pair_stable_two_sorts s.tableData a b _ _
          (colCmp s.sortAsc "downvotes") (colCmp (!s.sortAsc) "downvotes")
          (fun x _ y _ => rfl) (fun x _ y _ => rfl) ?_ ?_ ?_ ?_ hsub ?_ ?_
        · intro x y z hx hy
          rw [colCmp_eval_downvotes] at hx hy ⊢
          exact subCmp_trans (dirCases _) _ _ _ hx hy
        · intro x y
          rw [colCmp_eval_downvotes, colCmp_eval_downvotes]
          exact subCmp_total (dirCases _) _ _
        · intro x y z hx hy
          rw [colCmp_eval_downvotes] at hx hy ⊢
          exact subCmp_trans (dirCases _) _ _ _ hx hy
        · intro x y
          rw [colCmp_eval_downvotes, colCmp_eval_downvotes]
          exact subCmp_total (dirCases _) _ _
        · rw [colCmp_eval_downvotes]
          exact mulZero_le heq _
        · rw [colCmp_eval_downvotes]
          exact mulZero_le heq _
      · -- score
        have hs := hscore rfl
        have hkey : scoreKeyCmp true a b = 0 := by
          rw [← colCmp_score_agree (hs a hamem) (hs b hbmem)]
          exact heq
        rw [scoreKeyCmp, if_pos rfl] at hkey
        refine pair_stable_two_sorts s.tableData a b _ _
          (scoreKeyCmp s.sortAsc) (scoreKeyCmp (!s.sortAsc))
          (fun x hx y hy => colCmp_score_agree (hs x hx) (hs y hy))
          (fun x hx y hy => colCmp_score_agree (hs x hx) (hs y hy))
          (scoreKeyCmp_trans _) (scoreKeyCmp_total _)
          (scoreKeyCmp_trans _) (scoreKeyCmp_total _) hsub ?_ ?_
        · rw [scoreKeyCmp]
          exact mulZero_le hkey _
        · rw [scoreKeyCmp]
          exact mulZero_le hkey _
      · -- dateUtc
        rw [colCmp_eval_dateUtc, if_pos rfl] at heq
        refine pair_stable_two_sorts s.tableData a b _ _
          (colCmp s.sortAsc "dateUtc") (colCmp (!s.sortAsc) "dateUtc")
          (fun x _ y _ => rfl) (fun x _ y _ => rfl) ?_ ?_ ?_ ?_ hsub ?_ ?_
        · intro x y z hx hy
          rw [colCmp_eval_dateUtc] at hx hy ⊢
          exact subCmp_trans (dirCases _) _ _ _ hx hy
        · intro x y
          rw [colCmp_eval_dateUtc, colCmp_eval_dateUtc]
          exact subCmp_total (dirCases _) _ _
        · intro x y z hx hy
          rw [colCmp_eval_dateUtc] at hx hy ⊢
          exact subCmp_trans (dirCases _) _ _ _ hx hy
        · intro x y
          rw [colCmp_eval_dateUtc, colCmp_eval_dateUtc]
          exact subCmp_total (dirCases _) _ _
        · rw [colCmp_eval_dateUtc]
          exact mulZero_le heq _
        · rw [colCmp_eval_dateUtc]
          exact mulZero_le heq _

/-- Witness for C5 at a concrete two-row state whose bodies compare equal
under the case-insensitive body rule. -/
theorem c5_witness :
    let r1 : Row := { numbering := "1", level := 1, body := "Same", author := "a1"
                    , upvotes := 1, downvotes := 0, score := some 1, dateUtc := none }
    let r2 : Row := { numbering := "2", level := 1, body := "same", author := "a2"
                    , upvotes := 2, downvotes := 0, score := some 2, dateUtc := none }
    let s0 : AppState := { tableData := [r1, r2], tableBuilt := true, sortAsc := true }
    colCmp true "body" r1 r2 = 0 ∧
      [r1, r2].Sublist (sortTable (sortTable s0 "body") "body").tableData := by
  intro r1 r2 s0
  refine ⟨by decide, ?_⟩
  exact c5_double_sort_equal_pairs s0 "body" r1 r2 (fun h => absurd h (by decide))
    (List.Sublist.refl _) (by decide)

-- ===== C1 infrastructure =====

mutual
theorem buildRows_eq_spec : ∀ (l : List CNode) (pre : List Nat) (cnt : Nat),
    buildRows l pre cnt = preorderForest (assignNums l pre cnt)
  | [], _, _ => by simp [buildRows, assignNums, preorderForest]
  | CNode.more :: rest, pre, cnt => by
    simp only [buildRows, assignNums]
    exact buildRows_eq_spec rest pre cnt
  | CNode.comment b a u d sc t rep :: rest, pre, cnt => by
    simp only [buildRows, assignNums, preorderForest, preorderRows]
    rw [buildRowsReplies_eq_spec rep (pre ++ [cnt + 1]), buildRows_eq_spec rest pre (cnt + 1)]
    simp [List.cons_append]
theorem buildRowsReplies_eq_spec : ∀ (rep : Option (List CNode)) (arr : List Nat),
    buildRowsReplies rep arr = preorderForest (assignNumsReplies rep arr)
  | some children, arr => by
    simp only [buildRowsReplies, assignNumsReplies]
    exact buildRows_eq_spec children arr 0
  | none, _ => by simp [buildRowsReplies, assignNumsReplies, preorderForest]
end

mutual
theorem buildRows_length : ∀ (l : List CNode) (pre : List Nat) (cnt : Nat),
    (buildRows l pre cnt).length = nonStubCount l
  | [], _, _ => by simp [buildRows, nonStubCount]
  | CNode.more :: rest, pre, cnt => by
    simp only [buildRows, nonStubCount]
    exact buildRows_length rest pre cnt
  | CNode.comment b a u d sc t rep :: rest, pre, cnt => by
    simp only [buildRows, nonStubCount, List.length_cons, List.length_append]
    rw [buildRowsReplies_length rep (pre ++ [cnt + 1]), buildRows_length rest pre (cnt + 1)]
    omega
theorem buildRowsReplies_length : ∀ (rep : Option (List CNode)) (arr : List Nat),
    (buildRowsReplies rep arr).length = nonStubCountReplies rep
  | some children, arr => by
    simp only [buildRowsReplies, nonStubCountReplies]
    exact buildRows_length children arr 0
  | none, _ => by simp [buildRowsReplies, nonStubCountReplies]
end

mutual
theorem buildRows_mem_arr : ∀ (l : List CNode) (pre : List Nat) (cnt : Nat),
    ∀ r ∈ buildRows l pre cnt,
      ∃ arr ∈ buildArrs l pre cnt, r.numbering = renderNum arr ∧ r.level = arr.length
  | [], _, _ => by intro r h; simp [buildRows] at h
  | CNode.more :: rest, pre, cnt => by
    intro r h
    simp only [buildRows] at h
    obtain ⟨arr, ha, h1, h2⟩ := buildRows_mem_arr rest pre cnt r h
    exact ⟨arr, by simp only [buildArrs]; exact ha, h1, h2⟩
  | CNode.comment b a u d sc t rep :: rest, pre, cnt => by
    intro r h
    simp only [buildRows, List.mem_cons, List.mem_append] at h
    rcases h with h | h | h
    · refine ⟨pre ++ [cnt + 1], ?_, ?_, ?_⟩
      · simp only [buildArrs]
        exact List.mem_cons_self _ _
      · rw [h]; rfl
      · rw [h]; rfl
    · obtain ⟨arr, ha, h1, h2⟩ := buildRowsReplies_mem_arr rep (pre ++ [cnt + 1]) r h
      refine ⟨arr, ?_, h1, h2⟩
      simp only [buildArrs, List.mem_cons, List.mem_append]
      right; left; exact ha
    · obtain ⟨arr, ha, h1, h2⟩ := buildRows_mem_arr rest pre (cnt + 1) r h
      refine ⟨arr, ?_, h1, h2⟩
      simp only [buildArrs, List.mem_cons, List.mem_append]
      right; right; exact ha
theorem buildRowsReplies_mem_arr : ∀ (rep : Option (List CNode)) (arr0 : List Nat),
    ∀ r ∈ buildRowsReplies rep arr0,
      ∃ arr ∈ buildArrsReplies rep arr0, r.numbering = renderNum arr ∧ r.level = arr.length
  | some children, arr0 => by
    intro r h
    simp only [buildRowsReplies] at h
    obtain ⟨arr, ha, h1, h2⟩ := buildRows_mem_arr children arr0 0 r h
    exact ⟨arr, by simp only [buildArrsReplies]; exact ha, h1, h2⟩
  | none, _ => by intro r h; simp [buildRowsReplies] at h
end

-- ===== C1: flattener =====

/-- Claim C1: buildTableData emits exactly one Comment Record per non-stub
node of a well-formed listing, the sequence equals the pre-order emission
of the tree numbered with parent-prefix-plus-sibling-counter numbering in
which stubs are skipped without consuming a counter value, and each
record's level equals the number of dot-separated segments of its
numbering string. -/
theorem c1_flattener (l : List CNode) :
    buildTableData l = flattenSpec l ∧
      (buildTableData l).length = nonStubCount l ∧
      ∀ r ∈ buildTableData l, (jsSplitDot r.numbering).length = r.level := by
  refine ⟨buildRows_eq_spec l [] 0, buildRows_length l [] 0, ?_⟩
  intro r h
  obtain ⟨arr, ha, h1, h2⟩ := buildRows_mem_arr l [] 0 r h
  obtain ⟨k, rest, hs, _, _⟩ := buildArrs_shape l [] 0 arr ha
  have hne : arr ≠ [] := by rw [hs]; simp
  rw [h1, jsSplitDot_renderNum hne, List.length_map, h2]

/-- Witness for C1: a concrete listing with a nested reply and a stub; the
first record is present and its level matches its segment count. -/
theorem c1_witness :
    let demo : List CNode :=
      [ CNode.comment (some "c1") (some "a1") (some 3) (some 1) (some 2) none
          (some [ CNode.more
                , CNode.comment (some "c11") none none none none none none ])
      , CNode.more ]
    let r0 : Row := { numbering := "1.1", level := 2, body := "c11", author := "[deleted]"
                    , upvotes := 0, downvotes := 0, score := none, dateUtc := none }
    r0 ∈ buildTableData demo ∧ (jsSplitDot r0.numbering).length = r0.level := by
  intro demo r0
  have hm : r0 ∈ buildTableData demo := by
    simp only [demo, buildTableData, buildRows, buildRowsReplies]
    decide
  exact ⟨hm, (c1_flattener demo).2.2 r0 hm⟩

-- ===== C4 infrastructure: counts are leaf counts =====

mutual
theorem computeCounts_leaves : ∀ t : HTree,
    computeCounts t = ((subtreesOf t).filter isLeafT).length
  | HTree.node v ch => by
    by_cases hch : ch.isEmpty
    · have hnil : ch = [] := by
        cases ch
        · rfl
        · simp [List.isEmpty] at hch
      subst hnil
      rfl
    · have h1 : computeCounts (HTree.node v ch) = computeCountsList ch := by
        simp only [computeCounts, if_neg hch]
      have h2 : subtreesOf (HTree.node v ch) = HTree.node v ch :: subtreesOfList ch := by
        simp only [subtreesOf]
      have h3 : isLeafT (HTree.node v ch) = false := by
        simp only [isLeafT, HTree.childrenOf]
        cases ch
        · simp at hch
        · rfl
      rw [h1, h2, List.filter_cons, h3]
      simp only [Bool.false_eq_true, if_neg]
      exact computeCountsList_leaves ch
theorem computeCountsList_leaves : ∀ ts : List HTree,
    computeCountsList ts = ((subtreesOfList ts).filter isLeafT).length
  | [] => rfl
  | t :: ts => by
    simp only [computeCountsList, subtreesOfList, List.filter_append, List.length_append]
    rw [computeCounts_leaves t, computeCountsList_leaves ts]
end

mutual
theorem treeSize_nodes : ∀ t : HTree, treeSize t = (nodesOf t).length
  | HTree.node v ch => by
    simp only [treeSize, nodesOf, List.length_cons]
    rw [treeSizeList_nodes ch]
    omega
theorem treeSizeList_nodes : ∀ ts : List HTree, treeSizeList ts = (nodesOfList ts).length
  | [] => rfl
  | t :: ts => by
    simp only [treeSizeList, nodesOfList, List.length_append]
    rw [treeSize_nodes t, treeSizeList_nodes ts]
end

-- ===== C4: subtree counts =====

/-- Claim C4 as stated is false at a concrete rebuilt tree: for the flat
sequence with records numbered 1 and 1.1, the Hierarchy Node for record 1
has computed count 1, while its subtree contains 2 nodes including itself. -/
theorem c4_counterexample :
    let r1 : Row := { numbering := "1", level := 1, body := "b1", author := "a"
                    , upvotes := 0, downvotes := 0, score := some 0, dateUtc := none }
    let r2 : Row := { numbering := "1.1", level := 2, body := "b2", author := "a"
                    , upvotes := 0, downvotes := 0, score := some 0, dateUtc := none }
    let t := buildHierarchyFromDict (buildNodeDictionary [r1, r2])
    t.children.map computeCounts = [1] ∧ t.children.map treeSize = [2] := by
  constructor
  · decide
  · decide

/-- Claim C4 (amended): in the rebuilt tree every node's count equals the
number of leaf nodes of its own subtree - leaves get count 1 and internal
nodes get the sum of their children's counts without adding one for
themselves - and the root's count follows the same rule. -/
theorem c4_counts :
    (∀ t : HTree, computeCounts t = ((subtreesOf t).filter isLeafT).length) ∧
      ∀ d : List (String × DNode),
        computeCountsRoot (buildHierarchyFromDict d) =
          if (buildHierarchyFromDict d).children.isEmpty then 1
          else ((subtreesOfList (buildHierarchyFromDict d).children).filter isLeafT).length := by
  refine ⟨computeCounts_leaves, ?_⟩
  intro d
  by_cases h : (buildHierarchyFromDict d).children.isEmpty
  · rw [if_pos h]
    simp only [computeCountsRoot, if_pos h]
  · rw [if_neg h]
    simp only [computeCountsRoot, if_neg h]
    exact computeCountsList_leaves _

theorem beginsWith_iff : ∀ {a b : List Nat}, beginsWith a b = true ↔ ∃ s, b = a ++ s := by
  intro a
  induction a with
  | nil =>
    intro b
    simp [beginsWith]
  | cons p ps ih =>
    intro b
    cases b with
    | nil =>
      simp [beginsWith]
    | cons x xs =>
      simp only [beginsWith, Bool.and_eq_true, decide_eq_true_eq]
      constructor
      · rintro ⟨h1, h2⟩
        obtain ⟨s, hs⟩ := ih.mp h2
        refine ⟨s, ?_⟩
        rw [List.cons_append, ← h1, ← hs]
      · rintro ⟨s, hs⟩
        rw [List.cons_append] at hs
        injection hs with h1 h2
        exact ⟨h1.symm, ih.mpr ⟨s, h2⟩⟩

theorem beginsWith_refl (a : List Nat) : beginsWith a a = true :=
  beginsWith_iff.mpr ⟨[], by simp⟩

theorem beginsWith_append (a s : List Nat) : beginsWith a (a ++ s) = true :=
  beginsWith_iff.mpr ⟨s, rfl⟩

theorem beginsWith_length {a b : List Nat} (h : beginsWith a b = true) :
    a.length ≤ b.length := by
  obtain ⟨s, rfl⟩ := beginsWith_iff.mp h
  simp

theorem beginsWith_trans {a b c : List Nat} (h1 : beginsWith a b = true)
    (h2 : beginsWith b c = true) : beginsWith a c = true := by
  obtain ⟨s1, rfl⟩ := beginsWith_iff.mp h1
  obtain ⟨s2, rfl⟩ := beginsWith_iff.mp h2
  exact beginsWith_iff.mpr ⟨s1 ++ s2, by simp⟩

theorem beginsWith_antisym {a b : List Nat} (h1 : beginsWith a b = true)
    (h2 : beginsWith b a = true) : a = b := by
  obtain ⟨s1, hs1⟩ := beginsWith_iff.mp h1
  have l1 := beginsWith_length h1
  have l2 := beginsWith_length h2
  have hs : s1 = [] := by
    have := congrArg List.length hs1
    simp only [List.length_append] at this
    exact List.eq_nil_of_length_eq_zero (by omega)
  rw [hs1, hs]
  simp

theorem take_append_one (a : List Nat) (k : Nat) (r : List Nat) :
    (a ++ k :: r).take (a.length + 1) = a ++ [k] := by
  induction a with
  | nil => simp
  | cons x xs ih => simp [List.take, ih]

-- Distinctness of all numbering arrays the flattener produces
mutual
theorem buildArrs_nodup : ∀ (l : List CNode) (pre : List Nat) (cnt : Nat),
    (buildArrs l pre cnt).Nodup
  | [], _, _ => by simp [buildArrs]
  | CNode.more :: rest, pre, cnt => by
    simp only [buildArrs]
    exact buildArrs_nodup rest pre cnt
  | CNode.comment b a u d sc t rep :: rest, pre, cnt => by
    simp only [buildArrs]
    rw [List.nodup_cons]
    constructor
    · intro hmem
      rcases List.mem_append.mp hmem with h | h
      · obtain ⟨k, r2, heq, _, _⟩ := buildArrsReplies_shape rep (pre ++ [cnt + 1]) _ h
        have := congrArg List.length heq
        simp at this
      · obtain ⟨k, r2, heq, hk, _⟩ := buildArrs_shape rest pre (cnt + 1) _ h
        have : [cnt + 1] = k :: r2 := by
          have := heq
          rw [List.append_cancel_left_eq] at this
          exact this
        injection this with h1 _
        omega
    · apply List.Nodup.append (buildArrsReplies_nodup rep (pre ++ [cnt + 1]))
        (buildArrs_nodup rest pre (cnt + 1))
      intro arr h1 h2
      obtain ⟨k1, r1, he1, _, _⟩ := buildArrsReplies_shape rep (pre ++ [cnt + 1]) arr h1
      obtain ⟨k2, r2, he2, hk2, _⟩ := buildArrs_shape rest pre (cnt + 1) arr h2
      rw [he1] at he2
      rw [List.append_assoc] at he2
      rw [List.append_cancel_left_eq] at he2
      injection he2 with h1 _
      omega
theorem buildArrsReplies_nodup : ∀ (rep : Option (List CNode)) (arr0 : List Nat),
    (buildArrsReplies rep arr0).Nodup
  | some children, arr0 => by
    simp only [buildArrsReplies]
    exact buildArrs_nodup children arr0 0
  | none, _ => by simp [buildArrsReplies]
end

-- Every produced array's parent (dropLast) is the prefix or itself produced
mutual
theorem buildArrs_dropLast : ∀ (l : List CNode) (pre : List Nat) (cnt : Nat),
    ∀ arr ∈ buildArrs l pre cnt, arr.dropLast = pre ∨ arr.dropLast ∈ buildArrs l pre cnt
  | [], _, _ => by intro arr h; simp [buildArrs] at h
  | CNode.more :: rest, pre, cnt => by
    intro arr h
    simp only [buildArrs] at h ⊢
    exact buildArrs_dropLast rest pre cnt arr h
  | CNode.comment b a u d sc t rep :: rest, pre, cnt => by
    intro arr h
    simp only [buildArrs, List.mem_cons, List.mem_append] at h ⊢
    rcases h with h | h | h
    · left
      rw [h]
      exact List.dropLast_concat
    · rcases buildArrsReplies_dropLast rep (pre ++ [cnt + 1]) arr h with h2 | h2
      · right; left; rw [h2]
      · right; right; left; exact h2
    · rcases buildArrs_dropLast rest pre (cnt + 1) arr h with h2 | h2
      · left; exact h2
      · right; right; right; exact h2
theorem buildArrsReplies_dropLast : ∀ (rep : Option (List CNode)) (arr0 : List Nat),
    ∀ arr ∈ buildArrsReplies rep arr0,
      arr.dropLast = arr0 ∨ arr.dropLast ∈ buildArrsReplies rep arr0
  | some children, arr0 => by
    intro arr h
    simp only [buildArrsReplies] at h ⊢
    exact buildArrs_dropLast children arr0 0 arr h
  | none, _ => by intro arr h; simp [buildArrsReplies] at h
end

theorem dropLast_take {α : Type} (a : List α) (n : Nat) (h : n + 1 ≤ a.length) :
    (a.take (n + 1)).dropLast = a.take n := by
  rw [List.dropLast_eq_take]
  rw [List.take_take]
  congr 1
  rw [List.length_take]
  omega

theorem buildArrs_take (l : List CNode) (pre : List Nat) (cnt : Nat) :
    ∀ arr ∈ buildArrs l pre cnt, ∀ n, pre.length < n → n ≤ arr.length →
      arr.take n ∈ buildArrs l pre cnt := by
  intro arr harr n
  have main : ∀ k n, arr.length - n = k → pre.length < n → n ≤ arr.length →
      arr.take n ∈ buildArrs l pre cnt := by
    intro k
    induction k with
    | zero =>
      intro n hk h1 h2
      have : n = arr.length := by omega
      rw [this, List.take_length]
      exact harr
    | succ k ih =>
      intro n hk h1 h2
      have htk : arr.take (n + 1) ∈ buildArrs l pre cnt := by
        apply ih (n + 1) (by omega) (by omega) (by omega)
      have hdl := buildArrs_dropLast l pre cnt (arr.take (n + 1)) htk
      rw [dropLast_take arr n (by omega)] at hdl
      rcases hdl with h | h
      · exfalso
        have := congrArg List.length h
        rw [List.length_take] at this
        omega
      · exact h
  exact main (arr.length - n) n rfl

-- ===== C2 infrastructure, part 2: the node dictionary =====

theorem mem_dictInsert {k : String} {v : DNode} :
    ∀ {l : List (String × DNode)} {kv}, kv ∈ dictInsert k v l → kv = (k, v) ∨ kv ∈ l := by
  intro l
  induction l with
  | nil =>
    intro kv h
    simp [dictInsert] at h
    left; exact h
  | cons e rest ih =>
    intro kv h
    rw [dictInsert] at h
    by_cases he : e.1 = k
    · rw [if_pos he] at h
      rcases List.mem_cons.mp h with h | h
      · left; exact h
      · right; exact List.mem_cons_of_mem _ h
    · rw [if_neg he] at h
      rcases List.mem_cons.mp h with h | h
      · right; rw [h]; exact List.mem_cons_self _ _
      · rcases ih h with h2 | h2
        · left; exact h2
        · right; exact List.mem_cons_of_mem _ h2

theorem dictInsert_notmem {k : String} {v : DNode} :
    ∀ {l : List (String × DNode)}, k ∉ l.map Prod.fst → dictInsert k v l = l ++ [(k, v)] := by
  intro l
  induction l with
  | nil => intro _; rfl
  | cons e rest ih =>
    intro h
    simp only [List.map_cons, List.mem_cons] at h
    push_neg at h
    rw [dictInsert, if_neg (by exact fun hc => h.1 hc.symm)]
    rw [ih h.2]
    rfl

theorem foldl_dict_eq_map :
    ∀ (data : List Row) (acc : List (String × DNode)),
      (∀ kk ∈ acc.map Prod.fst, kk ∉ data.map Row.numbering) →
      (data.map Row.numbering).Nodup →
      data.foldl (fun d row => dictInsert row.numbering (mkDNode row) d) acc =
        acc ++ data.map (fun r => (r.numbering, mkDNode r)) := by
  intro data
  induction data with
  | nil => intro acc _ _; simp
  | cons r rest ih =>
    intro acc hdisj hnodup
    simp only [List.foldl_cons]
    have hnot : r.numbering ∉ acc.map Prod.fst := by
      intro hc
      exact hdisj r.numbering hc (by simp)
    rw [dictInsert_notmem hnot]
    simp only [List.map_cons, List.nodup_cons] at hnodup
    rw [ih (acc ++ [(r.numbering, mkDNode r)]) ?_ hnodup.2]
    · simp
    · intro kk hkk
      simp only [List.map_append, List.mem_append, List.map_cons] at hkk
      rcases hkk with h | h
      · intro hc
        exact hdisj kk h (by simp [hc])
      · simp at h
        rw [h]
        exact hnodup.1

theorem buildNodeDictionary_eq_map {data : List Row} (h : (data.map Row.numbering).Nodup) :
    buildNodeDictionary data = data.map (fun r => (r.numbering, mkDNode r)) := by
  rw [buildNodeDictionary, foldl_dict_eq_map data [] (by simp) h]
  rfl

theorem mem_foldl_dict :
    ∀ (data : List Row) (acc : List (String × DNode)) (kv : String × DNode),
      kv ∈ data.foldl (fun d row => dictInsert row.numbering (mkDNode row) d) acc →
      kv ∈ acc ∨ ∃ r ∈ data, kv = (r.numbering, mkDNode r) := by
  intro data
  induction data with
  | nil => intro acc kv h; left; exact h
  | cons r rest ih =>
    intro acc kv h
    simp only [List.foldl_cons] at h
    rcases ih _ kv h with h2 | h2
    · rcases mem_dictInsert h2 with h3 | h3
      · right; exact ⟨r, by simp, h3⟩
      · left; exact h3
    · obtain ⟨r2, hr2, he⟩ := h2
      right; exact ⟨r2, by simp [hr2], he⟩

theorem mem_buildNodeDictionary {data : List Row} {kv : String × DNode}
    (h : kv ∈ buildNodeDictionary data) : ∃ r ∈ data, kv = (r.numbering, mkDNode r) := by
  rcases mem_foldl_dict data [] kv h with h2 | h2
  · simp at h2
  · exact h2

-- ===== C2 infrastructure, part 3: Object.values is a permutation =====

theorem insByKey_perm (x : Nat × (String × DNode)) :
    ∀ l, (insByKey x l).Perm (x :: l) := by
  intro l
  induction l with
  | nil => simp [insByKey]
  | cons y ys ih =>
    rw [insByKey]
    by_cases h : x.1 ≤ y.1
    · rw [if_pos h]
    · rw [if_neg h]
      exact (List.Perm.cons y ih).trans (List.Perm.swap x y ys)

theorem sortByKey_perm : ∀ l, (sortByKey l).Perm l := by
  intro l
  induction l with
  | nil => simp [sortByKey]
  | cons x xs ih =>
    rw [sortByKey]
    exact (insByKey_perm x (sortByKey xs)).trans (List.Perm.cons x ih)

theorem jsObjectValues_perm (d : List (String × DNode)) :
    (jsObjectValues d).Perm (d.map Prod.snd) := by
  rw [jsObjectValues]
  have h1 : ((sortByKey ((d.filter (fun kv => (canonIndexKey kv.1).isSome)).map
      (fun kv => ((canonIndexKey kv.1).getD 0, kv)))).map (fun x => x.2.2)).Perm
      ((d.filter (fun kv => (canonIndexKey kv.1).isSome)).map Prod.snd) := by
    have hp := (sortByKey_perm ((d.filter (fun kv => (canonIndexKey kv.1).isSome)).map
      (fun kv => ((canonIndexKey kv.1).getD 0, kv)))).map (fun x => x.2.2)
    refine hp.trans ?_
    rw [List.map_map]
    rfl
  have h2 : (d.filter (fun kv => ¬ (canonIndexKey kv.1).isSome)).map Prod.snd =
      (d.filter (fun kv => !(canonIndexKey kv.1).isSome)).map Prod.snd := by
    congr 1
    apply List.filter_congr
    intro x _
    cases canonIndexKey x.1 <;> simp
  refine (List.Perm.append h1 (by rw [h2])).trans ?_
  rw [← List.map_append]
  exact (List.filter_append_perm _ d).map Prod.snd

theorem dropLast_map {α β : Type} (f : α → β) (l : List α) :
    (l.map f).dropLast = l.dropLast.map f := by
  rw [List.dropLast_eq_take, List.dropLast_eq_take, List.length_map, List.map_take]

theorem jsJoinDot_natToString (a : List Nat) :
    jsJoinDot (a.map natToString) = renderNum a := by
  simp only [jsJoinDot, renderNum, List.map_map]
  rfl

theorem derivedParentId_render {a : List Nat} (h : a ≠ []) :
    derivedParentId (renderNum a) =
      if a.length ≤ 1 then none else some (renderNum a.dropLast) := by
  simp only [derivedParentId, jsSplitDot_renderNum h, List.length_map]
  by_cases h1 : 1 < a.length
  · rw [if_pos h1, if_neg (by omega)]
    rw [dropLast_map, jsJoinDot_natToString]
  · rw [if_neg h1, if_pos (by omega)]

theorem derivedParentId_some {s p : String} (h : derivedParentId s = some p) :
    1 < (jsSplitDot s).length ∧ jsJoinDot ((jsSplitDot s).dropLast) = p := by
  simp only [derivedParentId] at h
  by_cases h1 : 1 < (jsSplitDot s).length
  · rw [if_pos h1] at h
    exact ⟨h1, Option.some.inj h⟩
  · rw [if_neg h1] at h
    exact absurd h (by simp)

theorem ValsOK.arr_ne {vals : List DNode} (H : ValsOK vals) {v : DNode} (hv : v ∈ vals) :
    arrOf v ≠ [] := (H.1 v hv).1

theorem ValsOK.id_eq {vals : List DNode} (H : ValsOK vals) {v : DNode} (hv : v ∈ vals) :
    v.id = renderNum (arrOf v) := (H.1 v hv).2.1

theorem ValsOK.parent_eq {vals : List DNode} (H : ValsOK vals) {v : DNode} (hv : v ∈ vals) :
    v.parentId = derivedParentId v.id := (H.1 v hv).2.2

theorem ValsOK.id_inj {vals : List DNode} (H : ValsOK vals) {v w : DNode} (hv : v ∈ vals)
    (hw : w ∈ vals) (h : v.id = w.id) : v = w :=
  List.inj_on_of_nodup_map H.2.1 hv hw h

theorem ValsOK.arr_inj {vals : List DNode} (H : ValsOK vals) {v w : DNode} (hv : v ∈ vals)
    (hw : w ∈ vals) (h : arrOf v = arrOf w) : v = w :=
  H.id_inj hv hw (by rw [H.id_eq hv, H.id_eq hw, h])

theorem ValsOK.vals_nodup {vals : List DNode} (H : ValsOK vals) : vals.Nodup :=
  List.Nodup.of_map DNode.id H.2.1

theorem ValsOK.root_iff {vals : List DNode} (H : ValsOK vals) {v : DNode} (hv : v ∈ vals) :
    attachesToRoot v = true ↔ (arrOf v).length = 1 := by
  have h1 := H.arr_ne hv
  have hlen : 0 < (arrOf v).length := List.length_pos.mpr h1
  have hp : v.parentId =
      if (arrOf v).length ≤ 1 then none else some (renderNum (arrOf v).dropLast) := by
    rw [H.parent_eq hv, H.id_eq hv, derivedParentId_render h1]
  by_cases h2 : (arrOf v).length ≤ 1
  · rw [if_pos h2] at hp
    simp only [attachesToRoot, hp]
    constructor
    · intro _; omega
    · intro _; trivial
  · rw [if_neg h2] at hp
    have hdne : (arrOf v).dropLast ≠ [] := by
      apply List.ne_nil_of_length_pos
      rw [List.length_dropLast]
      omega
    simp only [attachesToRoot, hp, decide_eq_true_eq]
    constructor
    · intro hc
      exact absurd hc (renderNum_ne_empty hdne)
    · intro hc
      exact absurd hc (by omega)

theorem ValsOK.child_iff {vals : List DNode} (H : ValsOK vals) {v w : DNode} (hv : v ∈ vals) :
    w ∈ childrenVals vals v.id ↔ w ∈ vals ∧ ∃ k, arrOf w = arrOf v ++ [k] := by
  rw [childrenVals, List.mem_filter]
  constructor
  · rintro ⟨hw, hcond⟩
    simp only [Bool.and_eq_true, Bool.not_eq_true', decide_eq_true_eq] at hcond
    obtain ⟨hroot, hpar⟩ := hcond
    have h1 := H.arr_ne hw
    have hpos : 0 < (arrOf w).length := List.length_pos.mpr h1
    have hlen : ¬ (arrOf w).length = 1 := by
      rw [← H.root_iff hw, hroot]
      simp
    have hp : w.parentId = some (renderNum (arrOf w).dropLast) := by
      rw [H.parent_eq hw, H.id_eq hw, derivedParentId_render h1, if_neg (by omega)]
    rw [hp] at hpar
    have hvid : renderNum ((arrOf w).dropLast) = renderNum (arrOf v) := by
      rw [Option.some.inj hpar, H.id_eq hv]
    have hdne : (arrOf w).dropLast ≠ [] := by
      apply List.ne_nil_of_length_pos
      rw [List.length_dropLast]
      omega
    have heq : (arrOf w).dropLast = arrOf v := renderNum_injOn hdne (H.arr_ne hv) hvid
    refine ⟨hw, ⟨(arrOf w).getLast h1, ?_⟩⟩
    rw [← heq]
    exact (List.dropLast_append_getLast h1).symm
  · rintro ⟨hw, k, hk⟩
    have hvpos : 0 < (arrOf v).length := List.length_pos.mpr (H.arr_ne hv)
    have hlen : (arrOf w).length = (arrOf v).length + 1 := by rw [hk]; simp
    have hroot : attachesToRoot w = false := by
      rw [Bool.eq_false_iff, Ne, H.root_iff hw]
      omega
    have hp : w.parentId = some v.id := by
      rw [H.parent_eq hw, H.id_eq hw, derivedParentId_render (H.arr_ne hw),
        if_neg (by omega), hk, List.dropLast_concat, ← H.id_eq hv]
    refine ⟨hw, ?_⟩
    simp [hroot, hp]

theorem ValsOK.arrLen_le {vals : List DNode} (H : ValsOK vals) {w : DNode} (hw : w ∈ vals) :
    (arrOf w).length ≤ vals.length := by
  have hsub : ((List.range (arrOf w).length).map
      (fun i => renderNum ((arrOf w).take (i + 1)))) ⊆ vals.map DNode.id := by
    intro s hs
    obtain ⟨i, hi, rfl⟩ := List.mem_map.mp hs
    rw [List.mem_range] at hi
    obtain ⟨u, hu, heq⟩ := H.2.2 w hw (i + 1) (by omega) (by omega)
    refine List.mem_map.mpr ⟨u, hu, ?_⟩
    rw [H.id_eq hu, heq]
  have hnd : ((List.range (arrOf w).length).map
      (fun i => renderNum ((arrOf w).take (i + 1)))).Nodup := by
    apply List.Nodup.map_on ?_ (List.nodup_range _)
    intro i hi j hj hij
    rw [List.mem_range] at hi hj
    have hne1 : (arrOf w).take (i + 1) ≠ [] := by
      apply List.ne_nil_of_length_pos
      rw [List.length_take]
      omega
    have hne2 : (arrOf w).take (j + 1) ≠ [] := by
      apply List.ne_nil_of_length_pos
      rw [List.length_take]
      omega
    have heq := renderNum_injOn hne1 hne2 hij
    have hl := congrArg List.length heq
    rw [List.length_take, List.length_take] at hl
    omega
  have hle := List.Subperm.length_le (List.Nodup.subperm hnd hsub)
  simpa using hle

theorem sum_map_ite_zero {α : Type} (p : α → Prop) [DecidablePred p] :
    ∀ l : List α, (∀ c ∈ l, ¬ p c) →
      (l.map (fun c => if p c then (1 : Nat) else 0)).sum = 0
  | [], _ => rfl
  | x :: xs, h => by
    simp only [List.map_cons, List.sum_cons]
    rw [if_neg (h x (by simp)), sum_map_ite_zero p xs (fun c hc => h c (by simp [hc]))]

theorem sum_map_ite_one {α : Type} [DecidableEq α] (p : α → Prop) [DecidablePred p] :
    ∀ l : List α, l.Nodup → ∀ c0, c0 ∈ l → p c0 → (∀ c ∈ l, p c → c = c0) →
      (l.map (fun c => if p c then (1 : Nat) else 0)).sum = 1 := by
  intro l
  induction l with
  | nil => intro _ c0 hc0 _ _; simp at hc0
  | cons x xs ih =>
    intro hnd c0 hc0 hp huniq
    rw [List.nodup_cons] at hnd
    simp only [List.map_cons, List.sum_cons]
    rcases List.mem_cons.mp hc0 with he | hm
    · rw [if_pos (by rw [← he]; exact hp)]
      have hz : (xs.map (fun c => if p c then (1 : Nat) else 0)).sum = 0 := by
        apply sum_map_ite_zero
        intro c hc hpc
        have hcx := huniq c (by simp [hc]) hpc
        rw [hcx, he] at hc
        exact hnd.1 hc
      rw [hz]
    · have hx : ¬ p x := by
        intro hpx
        have hxc := huniq x (by simp) hpx
        exact hnd.1 (by rw [hxc]; exact hm)
      rw [if_neg hx, ih hnd.2 c0 hm hp (fun c hc hpc => huniq c (by simp [hc]) hpc)]

theorem count_nodesOfList (x : DNode) :
    ∀ ts : List HTree, (nodesOfList ts).count x = (ts.map (fun t => (nodesOf t).count x)).sum
  | [] => by simp [nodesOfList]
  | t :: ts => by
    simp only [nodesOfList, List.map_cons, List.sum_cons, List.count_append]
    rw [count_nodesOfList x ts]

theorem dataOf_subtreeB (vals : List DNode) (f : Nat) (v : DNode) :
    (subtreeB vals f v).dataOf = v := by
  cases f <;> rfl

theorem mem_subtreesOfList (s : HTree) :
    ∀ ts : List HTree, s ∈ subtreesOfList ts ↔ ∃ t ∈ ts, s ∈ subtreesOf t
  | [] => by simp [subtreesOfList]
  | t :: ts => by
    simp only [subtreesOfList, List.mem_append, mem_subtreesOfList s ts, List.mem_cons]
    constructor
    · rintro (h | ⟨u, hu, hs⟩)
      · exact ⟨t, Or.inl rfl, h⟩
      · exact ⟨u, Or.inr hu, hs⟩
    · rintro ⟨u, hu | hu, hs⟩
      · rw [hu] at hs
        exact Or.inl hs
      · exact Or.inr ⟨u, hu, hs⟩

-- Each dictionary value below the given one appears exactly once in its
-- unfolded subtree, provided the fuel covers the depth range.
theorem count_subtreeB {vals : List DNode} (H : ValsOK vals) :
    ∀ (f : Nat) (v : DNode), v ∈ vals →
      (∀ w ∈ vals, beginsWith (arrOf v) (arrOf w) = true →
        (arrOf w).length ≤ (arrOf v).length + f) →
      ∀ x : DNode, (nodesOf (subtreeB vals f v)).count x =
        if x ∈ vals ∧ beginsWith (arrOf v) (arrOf x) = true then 1 else 0 := by
  intro f
  induction f with
  | zero =>
    intro v hv hb x
    simp only [subtreeB, nodesOf, nodesOfList]
    by_cases hx : x ∈ vals ∧ beginsWith (arrOf v) (arrOf x) = true
    · rw [if_pos hx]
      have h1 := beginsWith_length hx.2
      have h2 := hb x hx.1 hx.2
      obtain ⟨s, hs⟩ := beginsWith_iff.mp hx.2
      have hsnil : s = [] := by
        have hl := congrArg List.length hs
        simp only [List.length_append] at hl
        exact List.eq_nil_of_length_eq_zero (by omega)
      have hxv : x = v :=
        H.arr_inj hx.1 hv (by rw [hs, hsnil, List.append_nil])
      rw [hxv]
      simp
    · rw [if_neg hx]
      have hxv : x ≠ v := by
        intro he
        exact hx ⟨he ▸ hv, he ▸ beginsWith_refl (arrOf v)⟩
      rw [List.count_cons]
      simp [beq_iff_eq, Ne.symm hxv]
  | succ f ih =>
    intro v hv hb x
    simp only [subtreeB, nodesOf]
    rw [List.count_cons, count_nodesOfList x, List.map_map]
    have hmap : (childrenVals vals v.id).map
        ((fun t => (nodesOf t).count x) ∘ subtreeB vals f) =
        (childrenVals vals v.id).map
        (fun c => if x ∈ vals ∧ beginsWith (arrOf c) (arrOf x) = true then 1 else 0) := by
      apply List.map_congr_left
      intro c hc
      obtain ⟨hcv, k, hk⟩ := (H.child_iff hv).mp hc
      show (nodesOf (subtreeB vals f c)).count x = _
      apply ih c hcv
      intro w hw hbw
      have hvc : beginsWith (arrOf v) (arrOf c) = true := by
        rw [hk]
        exact beginsWith_append _ _
      have hwb := hb w hw (beginsWith_trans hvc hbw)
      have hlc : (arrOf c).length = (arrOf v).length + 1 := by rw [hk]; simp
      omega
    rw [hmap]
    by_cases hx : x ∈ vals ∧ beginsWith (arrOf v) (arrOf x) = true
    · rw [if_pos hx]
      by_cases hxv : x = v
      · have hz : ((childrenVals vals v.id).map
            (fun c => if x ∈ vals ∧ beginsWith (arrOf c) (arrOf x) = true
              then (1 : Nat) else 0)).sum = 0 := by
          apply sum_map_ite_zero
          intro c hc hpc
          obtain ⟨hcv, k, hk⟩ := (H.child_iff hv).mp hc
          have hl := beginsWith_length hpc.2
          rw [hk] at hl
          rw [hxv] at hl
          simp at hl
        rw [hz, hxv]
        simp
      · obtain ⟨s, hs⟩ := beginsWith_iff.mp hx.2
        have hsne : s ≠ [] := by
          intro h0
          exact hxv (H.arr_inj hx.1 hv (by rw [hs, h0, List.append_nil]))
        cases s with
        | nil => exact absurd rfl hsne
        | cons k r =>
          have hn : (arrOf v).length + 1 ≤ (arrOf x).length := by rw [hs]; simp
          obtain ⟨c0, hc0v, hc0⟩ := H.2.2 x hx.1 ((arrOf v).length + 1) (by omega) hn
          have hc0arr : arrOf c0 = arrOf v ++ [k] := by
            rw [hc0, hs, take_append_one]
          have hc0mem : c0 ∈ childrenVals vals v.id :=
            (H.child_iff hv).mpr ⟨hc0v, k, hc0arr⟩
          have hp0 : x ∈ vals ∧ beginsWith (arrOf c0) (arrOf x) = true := by
            refine ⟨hx.1, ?_⟩
            rw [hc0arr, hs]
            exact beginsWith_iff.mpr ⟨r, by simp⟩
          have huniq : ∀ c ∈ childrenVals vals v.id,
              (x ∈ vals ∧ beginsWith (arrOf c) (arrOf x) = true) → c = c0 := by
            intro c hc hpc
            obtain ⟨hcv, k2, hk2⟩ := (H.child_iff hv).mp hc
            obtain ⟨s2, hs2⟩ := beginsWith_iff.mp hpc.2
            have he1 : arrOf v ++ ([k2] ++ s2) = arrOf v ++ k :: r := by
              rw [← List.append_assoc, ← hk2, ← hs2, hs]
            have he2 : [k2] ++ s2 = k :: r := List.append_cancel_left he1
            have hk2k : k2 = k := by injection he2 with h1 _
            apply H.arr_inj hcv hc0v
            rw [hk2, hc0arr, hk2k]
          have hnd : (childrenVals vals v.id).Nodup := List.Nodup.filter _ H.vals_nodup
          rw [sum_map_ite_one _ _ hnd c0 hc0mem hp0 huniq]
          rw [if_neg (by simp only [beq_iff_eq]; exact Ne.symm hxv)]
    · rw [if_neg hx]
      have hxv : x ≠ v := by
        intro he
        exact hx ⟨he ▸ hv, he ▸ beginsWith_refl (arrOf v)⟩
      have hz : ((childrenVals vals v.id).map
          (fun c => if x ∈ vals ∧ beginsWith (arrOf c) (arrOf x) = true
            then (1 : Nat) else 0)).sum = 0 := by
        apply sum_map_ite_zero
        intro c hc hpc
        obtain ⟨hcv, k, hk⟩ := (H.child_iff hv).mp hc
        have hvc : beginsWith (arrOf v) (arrOf c) = true := by
          rw [hk]
          exact beginsWith_append _ _
        exact hx ⟨hpc.1, beginsWith_trans hvc hpc.2⟩
      rw [hz]
      rw [if_neg (by simp only [beq_iff_eq]; exact Ne.symm hxv)]

-- Each dictionary value appears exactly once among all nodes of the
-- rebuilt hierarchy below the synthetic root.
theorem count_rootNodes {vals : List DNode} (H : ValsOK vals) (x : DNode) :
    (nodesOfList ((vals.filter attachesToRoot).map (subtreeB vals vals.length))).count x =
      if x ∈ vals then 1 else 0 := by
  rw [count_nodesOfList, List.map_map]
  have hmap : (vals.filter attachesToRoot).map
      ((fun t => (nodesOf t).count x) ∘ subtreeB vals vals.length) =
      (vals.filter attachesToRoot).map
      (fun v => if x ∈ vals ∧ beginsWith (arrOf v) (arrOf x) = true then 1 else 0) := by
    apply List.map_congr_left
    intro v hvf
    have hv : v ∈ vals := List.mem_of_mem_filter hvf
    show (nodesOf (subtreeB vals vals.length v)).count x = _
    apply count_subtreeB H vals.length v hv
    intro w hw _
    have := H.arrLen_le hw
    omega
  rw [hmap]
  by_cases hx : x ∈ vals
  · rw [if_pos hx]
    have hxne := H.arr_ne hx
    have hxpos : 0 < (arrOf x).length := List.length_pos.mpr hxne
    obtain ⟨c0, hc0v, hc0⟩ := H.2.2 x hx 1 (by omega) (by omega)
    have hc0len : (arrOf c0).length = 1 := by
      rw [hc0, List.length_take]
      omega
    have hc0root : c0 ∈ vals.filter attachesToRoot := by
      rw [List.mem_filter]
      exact ⟨hc0v, (H.root_iff hc0v).mpr hc0len⟩
    have hp0 : x ∈ vals ∧ beginsWith (arrOf c0) (arrOf x) = true := by
      refine ⟨hx, ?_⟩
      rw [hc0]
      exact beginsWith_iff.mpr ⟨(arrOf x).drop 1, (List.take_append_drop 1 (arrOf x)).symm⟩
    have huniq : ∀ v ∈ vals.filter attachesToRoot,
        (x ∈ vals ∧ beginsWith (arrOf v) (arrOf x) = true) → v = c0 := by
      intro v hvf hpv
      rw [List.mem_filter] at hvf
      have hlen1 : (arrOf v).length = 1 := (H.root_iff hvf.1).mp hvf.2
      obtain ⟨s, hs⟩ := beginsWith_iff.mp hpv.2
      apply H.arr_inj hvf.1 hc0v
      rw [hc0, hs, ← hlen1, List.take_left]
    have hnd : (vals.filter attachesToRoot).Nodup := List.Nodup.filter _ H.vals_nodup
    rw [sum_map_ite_one _ _ hnd c0 hc0root hp0 huniq]
  · rw [if_neg hx]
    apply sum_map_ite_zero
    intro v _ hpv
    exact hx hpv.1

-- Every parent-child edge of an unfolded subtree links a dictionary value
-- to its recorded parent id.
theorem subtreeB_attach (vals : List DNode) :
    ∀ (f : Nat) (w : DNode), ∀ s ∈ subtreesOf (subtreeB vals f w), ∀ c ∈ s.childrenOf,
      c.dataOf ∈ vals ∧ c.dataOf.parentId = some s.dataOf.id ∧
        attachesToRoot c.dataOf = false := by
  intro f
  induction f with
  | zero =>
    intro w s hs c hc
    simp only [subtreeB, subtreesOf, subtreesOfList] at hs
    have hse : s = HTree.node w [] := by simpa using hs
    rw [hse] at hc
    simp [HTree.childrenOf] at hc
  | succ f ih =>
    intro w s hs c hc
    simp only [subtreeB, subtreesOf] at hs
    rcases List.mem_cons.mp hs with hse | hsm
    · subst hse
      simp only [HTree.childrenOf] at hc
      obtain ⟨c1, hc1, hceq⟩ := List.mem_map.mp hc
      rw [childrenVals, List.mem_filter] at hc1
      obtain ⟨hc1v, hcond⟩ := hc1
      simp only [Bool.and_eq_true, Bool.not_eq_true', decide_eq_true_eq] at hcond
      rw [← hceq, dataOf_subtreeB]
      exact ⟨hc1v, by simp [HTree.dataOf, hcond.2], hcond.1⟩
    · rw [mem_subtreesOfList] at hsm
      obtain ⟨t, ht, hst⟩ := hsm
      obtain ⟨c1, hc1, hteq⟩ := List.mem_map.mp ht
      rw [← hteq] at hst
      exact ih c1 s hst c hc

-- Every subtree of an unfolded subtree is rooted at the start value or at
-- some dictionary value.
theorem subtreeB_dataOf_mem (vals : List DNode) :
    ∀ (f : Nat) (w : DNode), ∀ s ∈ subtreesOf (subtreeB vals f w),
      s.dataOf = w ∨ s.dataOf ∈ vals := by
  intro f
  induction f with
  | zero =>
    intro w s hs
    simp only [subtreeB, subtreesOf, subtreesOfList] at hs
    have hse : s = HTree.node w [] := by simpa using hs
    rw [hse]
    left
    rfl
  | succ f ih =>
    intro w s hs
    simp only [subtreeB, subtreesOf] at hs
    rcases List.mem_cons.mp hs with hse | hsm
    · rw [hse]
      left
      rfl
    · rw [mem_subtreesOfList] at hsm
      obtain ⟨t, ht, hst⟩ := hsm
      obtain ⟨c1, hc1, hteq⟩ := List.mem_map.mp ht
      rw [← hteq] at hst
      have hc1v : c1 ∈ vals := by
        rw [childrenVals] at hc1
        exact List.mem_of_mem_filter hc1
      rcases ih c1 s hst with h | h
      · right
        rw [h]
        exact hc1v
      · right
        exact h

theorem mem_nodesOfList (x : DNode) :
    ∀ ts : List HTree, x ∈ nodesOfList ts ↔ ∃ t ∈ ts, x ∈ nodesOf t
  | [] => by simp [nodesOfList]
  | t :: ts => by
    simp only [nodesOfList, List.mem_append, mem_nodesOfList x ts, List.mem_cons]
    constructor
    · rintro (h | ⟨u, hu, hs⟩)
      · exact ⟨t, Or.inl rfl, h⟩
      · exact ⟨u, Or.inr hu, hs⟩
    · rintro ⟨u, hu | hu, hs⟩
      · rw [hu] at hs
        exact Or.inl hs
      · exact Or.inr ⟨u, hu, hs⟩

-- Every node of an unfolded subtree is the start value or carries the id of
-- some dictionary value as its parent id.
theorem mem_nodesOf_subtreeB (vals : List DNode) :
    ∀ (f : Nat) (w : DNode), w ∈ vals → ∀ x ∈ nodesOf (subtreeB vals f w),
      x = w ∨ (x ∈ vals ∧ ∃ u ∈ vals, x.parentId = some u.id) := by
  intro f
  induction f with
  | zero =>
    intro w _ x hx
    simp only [subtreeB, nodesOf, nodesOfList] at hx
    left
    simpa using hx
  | succ f ih =>
    intro w hw x hx
    simp only [subtreeB, nodesOf] at hx
    rcases List.mem_cons.mp hx with h | h
    · left
      exact h
    · rw [mem_nodesOfList] at h
      obtain ⟨t, ht, hxt⟩ := h
      obtain ⟨c1, hc1, hteq⟩ := List.mem_map.mp ht
      rw [childrenVals, List.mem_filter] at hc1
      obtain ⟨hc1v, hcond⟩ := hc1
      simp only [Bool.and_eq_true, Bool.not_eq_true', decide_eq_true_eq] at hcond
      rw [← hteq] at hxt
      rcases ih c1 hc1v x hxt with h2 | h2
      · right
        exact ⟨by rw [h2]; exact hc1v, w, hw, by rw [h2]; exact hcond.2⟩
      · right
        exact h2

-- Every strict descendant value is reachable as a child edge of the subtree
-- rooted at its parent array.
theorem child_edge_exists {vals : List DNode} (H : ValsOK vals) :
    ∀ (f : Nat) (v : DNode), v ∈ vals →
      (∀ w ∈ vals, beginsWith (arrOf v) (arrOf w) = true →
        (arrOf w).length ≤ (arrOf v).length + f) →
      ∀ x ∈ vals, beginsWith (arrOf v) (arrOf x) = true → x ≠ v →
        ∃ s ∈ subtreesOf (subtreeB vals f v), s.dataOf ∈ vals ∧
          arrOf s.dataOf = (arrOf x).dropLast ∧ ∃ c ∈ s.childrenOf, c.dataOf = x := by
  intro f
  induction f with
  | zero =>
    intro v hv hb x hx hbx hne
    exfalso
    obtain ⟨s, hs⟩ := beginsWith_iff.mp hbx
    have h2 := hb x hx hbx
    have hsnil : s = [] := by
      have hl := congrArg List.length hs
      simp only [List.length_append] at hl
      exact List.eq_nil_of_length_eq_zero (by omega)
    exact hne (H.arr_inj hx hv (by rw [hs, hsnil, List.append_nil]))
  | succ f ih =>
    intro v hv hb x hx hbx hne
    obtain ⟨s0, hs0⟩ := beginsWith_iff.mp hbx
    have hs0ne : s0 ≠ [] := fun h0 =>
      hne (H.arr_inj hx hv (by rw [hs0, h0, List.append_nil]))
    cases s0 with
    | nil => exact absurd rfl hs0ne
    | cons k r =>
      have hn : (arrOf v).length + 1 ≤ (arrOf x).length := by rw [hs0]; simp
      obtain ⟨c0, hc0v, hc0⟩ := H.2.2 x hx ((arrOf v).length + 1) (by omega) hn
      have hc0arr : arrOf c0 = arrOf v ++ [k] := by
        rw [hc0, hs0, take_append_one]
      have hc0mem : c0 ∈ childrenVals vals v.id :=
        (H.child_iff hv).mpr ⟨hc0v, k, hc0arr⟩
      by_cases hxc : x = c0
      · refine ⟨subtreeB vals (f + 1) v, ?_, ?_, ?_, ?_⟩
        · simp only [subtreeB, subtreesOf]
          exact List.mem_cons_self _ _
        · rw [dataOf_subtreeB]
          exact hv
        · rw [dataOf_subtreeB, hxc, hc0arr, List.dropLast_concat]
        · refine ⟨subtreeB vals f c0, ?_, ?_⟩
          · simp only [subtreeB, HTree.childrenOf]
            exact List.mem_map_of_mem _ hc0mem
          · rw [dataOf_subtreeB, hxc]
      · have hbx0 : beginsWith (arrOf c0) (arrOf x) = true := by
          rw [hc0arr, hs0]
          exact beginsWith_iff.mpr ⟨r, by simp⟩
        have hb0 : ∀ w ∈ vals, beginsWith (arrOf c0) (arrOf w) = true →
            (arrOf w).length ≤ (arrOf c0).length + f := by
          intro w hw hbw
          have hvc : beginsWith (arrOf v) (arrOf c0) = true := by
            rw [hc0arr]
            exact beginsWith_append _ _
          have hwb := hb w hw (beginsWith_trans hvc hbw)
          have hlc : (arrOf c0).length = (arrOf v).length + 1 := by rw [hc0arr]; simp
          omega
        obtain ⟨s, hsmem, hsv, hsarr, c, hcmem, hcd⟩ := ih c0 hc0v hb0 x hx hbx0 hxc
        refine ⟨s, ?_, hsv, hsarr, c, hcmem, hcd⟩
        simp only [subtreeB, subtreesOf]
        apply List.mem_cons_of_mem
        rw [mem_subtreesOfList]
        exact ⟨subtreeB vals f c0, List.mem_map_of_mem _ hc0mem, hsmem⟩

-- ===== C2 infrastructure, part 5: the flattener feeds ValsOK values =====

theorem buildTableData_numbering_nodup (l : List CNode) :
    ((buildTableData l).map Row.numbering).Nodup := by
  show ((buildRows l [] 0).map Row.numbering).Nodup
  rw [buildRows_map_num l [] 0]
  apply List.Nodup.map_on ?_ (buildArrs_nodup l [] 0)
  intro a ha b hb hre
  obtain ⟨k1, r1, he1, _, _⟩ := buildArrs_shape l [] 0 a ha
  obtain ⟨k2, r2, he2, _, _⟩ := buildArrs_shape l [] 0 b hb
  have hane : a ≠ [] := by rw [he1]; simp
  have hbne : b ≠ [] := by rw [he2]; simp
  exact renderNum_injOn hane hbne hre

theorem dict_flattener (l : List CNode) :
    buildNodeDictionary (buildTableData l) =
      (buildTableData l).map (fun r => (r.numbering, mkDNode r)) :=
  buildNodeDictionary_eq_map (buildTableData_numbering_nodup l)

theorem vals_flattener_perm (l : List CNode) :
    (jsObjectValues (buildNodeDictionary (buildTableData l))).Perm
      ((buildTableData l).map mkDNode) := by
  rw [dict_flattener]
  have h := jsObjectValues_perm ((buildTableData l).map (fun r => (r.numbering, mkDNode r)))
  rw [List.map_map] at h
  have hfe : (Prod.snd ∘ fun r : Row => (r.numbering, mkDNode r)) = mkDNode := rfl
  rw [hfe] at h
  exact h

theorem vals_flattener_mem {l : List CNode} {v : DNode}
    (hv : v ∈ jsObjectValues (buildNodeDictionary (buildTableData l))) :
    ∃ r ∈ buildTableData l, v = mkDNode r ∧
      ∃ arr ∈ buildArrs l [] 0, r.numbering = renderNum arr ∧ arrOf v = arr := by
  have hv2 : v ∈ (buildTableData l).map mkDNode := ((vals_flattener_perm l).mem_iff).mp hv
  obtain ⟨r, hr, hveq⟩ := List.mem_map.mp hv2
  obtain ⟨arr, harr, hnum, _⟩ := buildRows_mem_arr l [] 0 r hr
  have harrne : arr ≠ [] := by
    obtain ⟨k, rest, he, _, _⟩ := buildArrs_shape l [] 0 arr harr
    rw [he]
    simp
  refine ⟨r, hr, hveq.symm, arr, harr, hnum, ?_⟩
  rw [← hveq]
  show decodeNum r.numbering = arr
  rw [hnum, decodeNum_renderNum harrne]

theorem valsOK_flattener (l : List CNode) :
    ValsOK (jsObjectValues (buildNodeDictionary (buildTableData l))) := by
  refine ⟨?_, ?_, ?_⟩
  · intro v hv
    obtain ⟨r, hr, hveq, arr, harr, hnum, harrOf⟩ := vals_flattener_mem hv
    have harrne : arr ≠ [] := by
      obtain ⟨k, rest, he, _, _⟩ := buildArrs_shape l [] 0 arr harr
      rw [he]
      simp
    refine ⟨by rw [harrOf]; exact harrne, ?_, ?_⟩
    · rw [harrOf, hveq]
      exact hnum
    · rw [hveq]
      rfl
  · have hperm : ((jsObjectValues (buildNodeDictionary (buildTableData l))).map
        DNode.id).Perm ((buildTableData l).map Row.numbering) := by
      have h := (vals_flattener_perm l).map DNode.id
      rw [List.map_map] at h
      have hfe : (DNode.id ∘ mkDNode) = Row.numbering := rfl
      rw [hfe] at h
      exact h
    exact (hperm.nodup_iff).mpr (buildTableData_numbering_nodup l)
  · intro v hv n hn hnle
    obtain ⟨r, hr, hveq, arr, harr, hnum, harrOf⟩ := vals_flattener_mem hv
    rw [harrOf] at hnle ⊢
    have harrne : arr ≠ [] := by
      obtain ⟨k, rest, he, _, _⟩ := buildArrs_shape l [] 0 arr harr
      rw [he]
      simp
    have htk : arr.take n ∈ buildArrs l [] 0 :=
      buildArrs_take l [] 0 arr harr n (by simpa using hn) hnle
    have hmem : renderNum (arr.take n) ∈ (buildTableData l).map Row.numbering := by
      show renderNum (arr.take n) ∈ (buildRows l [] 0).map Row.numbering
      rw [buildRows_map_num l [] 0]
      exact List.mem_map_of_mem _ htk
    obtain ⟨r2, hr2, hrnum⟩ := List.mem_map.mp hmem
    refine ⟨mkDNode r2, ?_, ?_⟩
    · exact ((vals_flattener_perm l).mem_iff).mpr (List.mem_map_of_mem _ hr2)
    · show decodeNum r2.numbering = arr.take n
      have htkne : arr.take n ≠ [] := by
        apply List.ne_nil_of_length_pos
        rw [List.length_take]
        have := List.length_pos.mpr harrne
        omega
      rw [hrnum, decodeNum_renderNum htkne]

-- ===== C2: hierarchy rebuilder =====

/-- Claim C2: for every flat sequence the flattener produces, the rebuilt
hierarchy holds exactly one Hierarchy Node per Comment Record plus the
synthetic root: the tree nodes below the root are a permutation of the
records' dictionary nodes and the tree size is the record count plus one;
a record's node is a direct child of the root exactly when its numbering
has one dot segment; every parent-child edge of the tree attaches a node
to the node whose id is the child's numbering with the last dot segment
removed, and every record with two or more segments is attached at exactly
such an edge. For an arbitrary flat sequence of records with well-formed
numbering strings, a record whose derived parent id occurs nowhere in the
sequence is omitted from the tree rather than causing failure. -/
theorem c2_rebuilder :
    (∀ l : List CNode,
      (rootNodes (buildHierarchyFromDict (buildNodeDictionary (buildTableData l)))).Perm
          ((buildTableData l).map mkDNode) ∧
        rootTreeSize (buildHierarchyFromDict (buildNodeDictionary (buildTableData l))) =
          (buildTableData l).length + 1 ∧
        (∀ c ∈ (buildHierarchyFromDict (buildNodeDictionary (buildTableData l))).children,
          ∃ r ∈ buildTableData l,
            c.dataOf = mkDNode r ∧ (jsSplitDot r.numbering).length = 1) ∧
        (∀ r ∈ buildTableData l, (jsSplitDot r.numbering).length = 1 →
          ∃ c ∈ (buildHierarchyFromDict (buildNodeDictionary (buildTableData l))).children,
            c.dataOf = mkDNode r) ∧
        (∀ t ∈ subtreesOfList
            (buildHierarchyFromDict (buildNodeDictionary (buildTableData l))).children,
          ∀ c ∈ t.childrenOf, c.dataOf.parentId = some t.dataOf.id ∧
            1 < (jsSplitDot c.dataOf.id).length ∧
            jsJoinDot ((jsSplitDot c.dataOf.id).dropLast) = t.dataOf.id) ∧
        (∀ r ∈ buildTableData l, 1 < (jsSplitDot r.numbering).length →
          ∃ t ∈ subtreesOfList
              (buildHierarchyFromDict (buildNodeDictionary (buildTableData l))).children,
            t.dataOf.id = jsJoinDot ((jsSplitDot r.numbering).dropLast) ∧
            ∃ c ∈ t.childrenOf, c.dataOf = mkDNode r)) ∧
      ∀ data : List Row, (∀ r ∈ data, ∃ arr, arr ≠ [] ∧ r.numbering = renderNum arr) →
        ∀ r ∈ data, ∀ pid, derivedParentId r.numbering = some pid →
          pid ∉ data.map Row.numbering →
          ∀ x ∈ rootNodes (buildHierarchyFromDict (buildNodeDictionary data)),
            x.id ≠ r.numbering := by
  constructor
  · intro l
    have H := valsOK_flattener l
    have hch : (buildHierarchyFromDict (buildNodeDictionary (buildTableData l))).children =
        ((jsObjectValues (buildNodeDictionary (buildTableData l))).filter attachesToRoot).map
          (subtreeB (jsObjectValues (buildNodeDictionary (buildTableData l)))
            (jsObjectValues (buildNodeDictionary (buildTableData l))).length) := rfl
    have hperm : (rootNodes
        (buildHierarchyFromDict (buildNodeDictionary (buildTableData l)))).Perm
        ((buildTableData l).map mkDNode) := by
      have h1 : (rootNodes
          (buildHierarchyFromDict (buildNodeDictionary (buildTableData l)))).Perm
          (jsObjectValues (buildNodeDictionary (buildTableData l))) := by
        apply List.perm_iff_count.mpr
        intro x
        have hc2 : (rootNodes
            (buildHierarchyFromDict (buildNodeDictionary (buildTableData l)))).count x =
            if x ∈ jsObjectValues (buildNodeDictionary (buildTableData l)) then 1 else 0 :=
          count_rootNodes H x
        rw [hc2]
        by_cases hx : x ∈ jsObjectValues (buildNodeDictionary (buildTableData l))
        · rw [if_pos hx, List.count_eq_one_of_mem H.vals_nodup hx]
        · rw [if_neg hx, List.count_eq_zero.mpr hx]
      exact h1.trans (vals_flattener_perm l)
    refine ⟨hperm, ?_, ?_, ?_, ?_, ?_⟩
    · show 1 + treeSizeList
        (buildHierarchyFromDict (buildNodeDictionary (buildTableData l))).children = _
      rw [treeSizeList_nodes]
      have hlen := hperm.length_eq
      rw [List.length_map] at hlen
      have hlen2 : (nodesOfList
          (buildHierarchyFromDict (buildNodeDictionary (buildTableData l))).children).length =
          (buildTableData l).length := hlen
      omega
    · intro c hcmem
      rw [hch] at hcmem
      obtain ⟨v, hvf, hceq⟩ := List.mem_map.mp hcmem
      rw [List.mem_filter] at hvf
      obtain ⟨r, hr, hveq, arr, harr, hnum, harrOf⟩ := vals_flattener_mem hvf.1
      refine ⟨r, hr, ?_, ?_⟩
      · rw [← hceq, dataOf_subtreeB, hveq]
      · have hlen1 : (arrOf v).length = 1 := (H.root_iff hvf.1).mp hvf.2
        rw [harrOf] at hlen1
        have harrne : arr ≠ [] := List.ne_nil_of_length_pos (by omega)
        rw [hnum, jsSplitDot_renderNum harrne, List.length_map]
        exact hlen1
    · intro r hr h1seg
      obtain ⟨arr, harr, hnum, _⟩ := buildRows_mem_arr l [] 0 r hr
      have harrne : arr ≠ [] := by
        obtain ⟨k, rest, he, _, _⟩ := buildArrs_shape l [] 0 arr harr
        rw [he]
        simp
      have hvv : mkDNode r ∈ jsObjectValues (buildNodeDictionary (buildTableData l)) :=
        ((vals_flattener_perm l).mem_iff).mpr (List.mem_map_of_mem _ hr)
      have hlen1 : arr.length = 1 := by
        rw [hnum, jsSplitDot_renderNum harrne, List.length_map] at h1seg
        exact h1seg
      have harrOf : arrOf (mkDNode r) = arr := by
        show decodeNum r.numbering = arr
        rw [hnum, decodeNum_renderNum harrne]
      have hroot : attachesToRoot (mkDNode r) = true :=
        (H.root_iff hvv).mpr (by rw [harrOf]; exact hlen1)
      refine ⟨subtreeB (jsObjectValues (buildNodeDictionary (buildTableData l)))
        (jsObjectValues (buildNodeDictionary (buildTableData l))).length (mkDNode r), ?_, ?_⟩
      · rw [hch]
        exact List.mem_map_of_mem _ (List.mem_filter.mpr ⟨hvv, hroot⟩)
      · exact dataOf_subtreeB _ _ _
    · intro t htmem c hcmem
      rw [hch, mem_subtreesOfList] at htmem
      obtain ⟨t0, ht0, htt⟩ := htmem
      obtain ⟨v0, hv0f, ht0eq⟩ := List.mem_map.mp ht0
      rw [← ht0eq] at htt
      obtain ⟨hcv, hcpar, hcroot⟩ :=
        subtreeB_attach (jsObjectValues (buildNodeDictionary (buildTableData l)))
          (jsObjectValues (buildNodeDictionary (buildTableData l))).length v0 t htt c hcmem
      have htv : t.dataOf ∈ jsObjectValues (buildNodeDictionary (buildTableData l)) := by
        rcases subtreeB_dataOf_mem (jsObjectValues (buildNodeDictionary (buildTableData l)))
            (jsObjectValues (buildNodeDictionary (buildTableData l))).length v0 t htt with h | h
        · rw [h]
          exact List.mem_of_mem_filter hv0f
        · exact h
      have hd : derivedParentId c.dataOf.id = some t.dataOf.id := by
        rw [← H.parent_eq hcv]
        exact hcpar
      obtain ⟨hgt, hjoin⟩ := derivedParentId_some hd
      exact ⟨hcpar, hgt, hjoin⟩
    · intro r hr hgt1
      obtain ⟨arr, harr, hnum, _⟩ := buildRows_mem_arr l [] 0 r hr
      have harrne : arr ≠ [] := by
        obtain ⟨k, rest, he, _, _⟩ := buildArrs_shape l [] 0 arr harr
        rw [he]
        simp
      have hlen : 1 < arr.length := by
        rw [hnum, jsSplitDot_renderNum harrne, List.length_map] at hgt1
        exact hgt1
      have hvv : mkDNode r ∈ jsObjectValues (buildNodeDictionary (buildTableData l)) :=
        ((vals_flattener_perm l).mem_iff).mpr (List.mem_map_of_mem _ hr)
      have harrOf : arrOf (mkDNode r) = arr := by
        show decodeNum r.numbering = arr
        rw [hnum, decodeNum_renderNum harrne]
      obtain ⟨v0, hv0v, hv0arr⟩ :=
        H.2.2 (mkDNode r) hvv 1 (by omega) (by rw [harrOf]; omega)
      have hv0len : (arrOf v0).length = 1 := by
        rw [hv0arr, List.length_take, harrOf]
        omega
      have hv0root : attachesToRoot v0 = true := (H.root_iff hv0v).mpr hv0len
      have hb : ∀ w ∈ jsObjectValues (buildNodeDictionary (buildTableData l)),
          beginsWith (arrOf v0) (arrOf w) = true → (arrOf w).length ≤
            (arrOf v0).length + (jsObjectValues (buildNodeDictionary (buildTableData l))).length := by
        intro w hw _
        have := H.arrLen_le hw
        omega
      have hbx : beginsWith (arrOf v0) (arrOf (mkDNode r)) = true := by
        rw [hv0arr]
        exact beginsWith_iff.mpr ⟨(arrOf (mkDNode r)).drop 1,
          (List.take_append_drop 1 _).symm⟩
      have hne : mkDNode r ≠ v0 := by
        intro he
        rw [← he, harrOf] at hv0len
        omega
      obtain ⟨s, hsmem, hsv, hsarr, c, hcmem, hcd⟩ :=
        child_edge_exists H (jsObjectValues (buildNodeDictionary (buildTableData l))).length
          v0 hv0v hb (mkDNode r) hvv hbx hne
      refine ⟨s, ?_, ?_, c, hcmem, hcd⟩
      · rw [hch, mem_subtreesOfList]
        exact ⟨subtreeB (jsObjectValues (buildNodeDictionary (buildTableData l)))
          (jsObjectValues (buildNodeDictionary (buildTableData l))).length v0,
          List.mem_map_of_mem _ (List.mem_filter.mpr ⟨hv0v, hv0root⟩), hsmem⟩
      · rw [H.id_eq hsv, hsarr, harrOf, hnum, jsSplitDot_renderNum harrne, dropLast_map,
          jsJoinDot_natToString]
  · intro data hwf r hr pid hpid hnot x hx hxid
    have hvals_mem : ∀ v ∈ jsObjectValues (buildNodeDictionary data),
        ∃ r2 ∈ data, v = mkDNode r2 := by
      intro v hv
      have hvd : v ∈ (buildNodeDictionary data).map Prod.snd :=
        (jsObjectValues_perm _).mem_iff.mp hv
      obtain ⟨kv, hkv, hkveq⟩ := List.mem_map.mp hvd
      obtain ⟨r2, hr2, hkv2⟩ := mem_buildNodeDictionary hkv
      exact ⟨r2, hr2, by rw [← hkveq, hkv2]⟩
    have hpidne : pid ≠ "" := by
      obtain ⟨arr, harrne, hnum⟩ := hwf r hr
      rw [hnum, derivedParentId_render harrne] at hpid
      by_cases hle : arr.length ≤ 1
      · rw [if_pos hle] at hpid
        exact Option.noConfusion hpid
      · rw [if_neg hle] at hpid
        have hdne : arr.dropLast ≠ [] := by
          apply List.ne_nil_of_length_pos
          rw [List.length_dropLast]
          omega
        intro hcon
        exact renderNum_ne_empty hdne (by rw [Option.some.inj hpid, hcon])
    have hx2 : x ∈ nodesOfList
        (((jsObjectValues (buildNodeDictionary data)).filter attachesToRoot).map
          (subtreeB (jsObjectValues (buildNodeDictionary data))
            (jsObjectValues (buildNodeDictionary data)).length)) := hx
    rw [mem_nodesOfList] at hx2
    obtain ⟨t, ht, hxt⟩ := hx2
    obtain ⟨v0, hv0f, hteq⟩ := List.mem_map.mp ht
    rw [List.mem_filter] at hv0f
    rw [← hteq] at hxt
    rcases mem_nodesOf_subtreeB (jsObjectValues (buildNodeDictionary data))
        (jsObjectValues (buildNodeDictionary data)).length v0 hv0f.1 x hxt with
      hxv0 | ⟨hxvals, u, hu, hxp⟩
    · obtain ⟨r2, hr2, hv0eq⟩ := hvals_mem v0 hv0f.1
      have hxpar : x.parentId = some pid := by
        rw [hxv0, hv0eq]
        show derivedParentId r2.numbering = some pid
        have hnum2 : r2.numbering = r.numbering := by
          rw [← hxid, hxv0, hv0eq]
          rfl
        rw [hnum2]
        exact hpid
      have hroot := hv0f.2
      rw [← hxv0] at hroot
      simp only [attachesToRoot, hxpar, decide_eq_true_eq] at hroot
      exact hpidne hroot
    · obtain ⟨r4, hr4, hxeq⟩ := hvals_mem x hxvals
      have hxpar : x.parentId = some pid := by
        rw [hxeq]
        show derivedParentId r4.numbering = some pid
        have hnum4 : r4.numbering = r.numbering := by
          rw [← hxid, hxeq]
          rfl
        rw [hnum4]
        exact hpid
      obtain ⟨r3, hr3, hueq⟩ := hvals_mem u hu
      apply hnot
      rw [hxpar] at hxp
      have hpid3 : pid = r3.numbering := by
        have := Option.some.inj hxp
        rw [this, hueq]
        rfl
      rw [hpid3]
      exact List.mem_map_of_mem _ hr3

/-- Witness for C2: a record numbered 2.1 whose parent 2 is absent from the
sequence is omitted from the rebuilt tree, and a two-comment listing yields
a rebuilt tree of three nodes counting the synthetic root. -/
theorem c2_witness :
    (∀ x ∈ rootNodes (buildHierarchyFromDict (buildNodeDictionary
        [{ numbering := "2.1", level := 2, body := "b", author := "a", upvotes := 0,
           downvotes := 0, score := some 1, dateUtc := none : Row }])),
      x.id ≠ "2.1") ∧
    rootTreeSize (buildHierarchyFromDict (buildNodeDictionary (buildTableData
      [CNode.comment (some "c1") (some "a1") (some 3) (some 1) (some 2) none
        (some [CNode.comment none none none none none none none])]))) = 3 := by
  constructor
  · intro x hx
    apply c2_rebuilder.2
      [{ numbering := "2.1", level := 2, body := "b", author := "a", upvotes := 0,
         downvotes := 0, score := some 1, dateUtc := none : Row }]
      ?_
      { numbering := "2.1", level := 2, body := "b", author := "a", upvotes := 0,
        downvotes := 0, score := some 1, dateUtc := none : Row }
      (by simp) "2" (by decide) (by decide) x hx
    intro r hr
    rw [List.mem_singleton] at hr
    exact ⟨[2, 1], by decide, by rw [hr]; decide⟩
  · rw [(c2_rebuilder.1
      [CNode.comment (some "c1") (some "a1") (some 3) (some 1) (some 2) none
        (some [CNode.comment none none none none none none none])]).2.1]
    simp only [buildTableData, buildRows, buildRowsReplies]
    decide
